import Mathlib

/-!
# menubar-utils / claude-usage

A shallow embedding of `src/claude-usage/main.go` and the properties its
specification states about it.

Conventions of the embedding

* A Go `string` is a `List Char` (`Str`): the text the program handles is
  compared, trimmed, split and concatenated, never indexed by byte.
* A Go `map[string]string` is a partial function `Str → Option Str`.
* A Go pointer that may be `nil` is an `Option`.
* Everything the program obtains from its environment (the home directory,
  the config file, the HTTP round trip, the JSON decoder, the clock) is an
  explicit input of the function that uses it.
-/

namespace ClaudeUsage

/-! ## Strings -/

/-- A Go string, as the sequence of its characters. -/
abbrev Str := List Char

/-- Go `unicode.IsSpace`: the characters `strings.TrimSpace` removes. -/
def isSpace (c : Char) : Bool :=
  c = '\t' || c = '\n' || c = Char.ofNat 0x0B || c = Char.ofNat 0x0C || c = '\r' || c = ' '
    || c = Char.ofNat 0x85 || c = Char.ofNat 0xA0 || c = Char.ofNat 0x1680
    || (0x2000 ≤ c.toNat && c.toNat ≤ 0x200A)
    || c = Char.ofNat 0x2028 || c = Char.ofNat 0x2029 || c = Char.ofNat 0x202F
    || c = Char.ofNat 0x205F || c = Char.ofNat 0x3000

/-- Remove the leading white space of a string. -/
def trimLeft (s : Str) : Str := s.dropWhile isSpace

/-- Remove the trailing white space of a string. -/
def trimRight (s : Str) : Str := (s.reverse.dropWhile isSpace).reverse

/-- Go `strings.TrimSpace`: remove leading and trailing white space. -/
def trimSpace (s : Str) : Str := trimRight (trimLeft s)

/-- Go `strings.HasPrefix`. -/
def hasPrefix (s p : Str) : Bool := p.isPrefixOf s

/-- Go `strings.SplitN(s, sep, n)` for a one-character separator and `n ≥ 0`:
at most `n` pieces, the last one holding the unsplit remainder. -/
def splitN (s : Str) (sep : Char) : Nat → List Str
  | 0 => []
  | 1 => [s]
  | n + 2 =>
    match s.span (fun c => c != sep) with
    | (a, []) => [a]
    | (a, _ :: rest) => a :: splitN rest sep (n + 1)

/-- Go `strings.Contains` (naive search). -/
def containsStr (s p : Str) : Bool :=
  match s with
  | [] => p.isEmpty
  | c :: cs => p.isPrefixOf (c :: cs) || containsStr cs p

/-! ## The config loader -/

/-- The mapping `loadEnv` builds: a Go `map[string]string`. -/
abbrev Env := Str → Option Str

/-- The result of `make(map[string]string)`. -/
def Env.empty : Env := fun _ => none

/-- The assignment `env[key] = value`. -/
def Env.set (env : Env) (key value : Str) : Env :=
  fun k => if k = key then some value else env k

/-- The read `env[key]`: the zero value `""` for a key that is not in the map. -/
def Env.get (env : Env) (key : Str) : Str := (env key).getD []

/-- One iteration of the scanning loop of `loadEnv`, on the line the scanner
returned. -/
def loadEnvStep (env : Env) (text : Str) : Env :=
  let line := trimSpace text
  if line = [] ∨ hasPrefix line ['#'] = true then env
  else
    match splitN line '=' 2 with
    | [p0, p1] => env.set (trimSpace p0) (trimSpace p1)
    | _ => env

/-- The scanning loop of `loadEnv` over the lines of the file, in file order. -/
def loadEnvLines (lines : List Str) : Env := lines.foldl loadEnvStep Env.empty

/-- What reading the config file gives: `os.Open` fails, or the scanner
returns the lines of the file and then stops, with or without an error
(`scanner.Err()`). -/
inductive FileRead where
  | openError
  | scanned (lines : List Str) (scanErr : Bool)
  deriving DecidableEq

/-- The function `loadEnv`: the map (`none` for Go `nil`) and whether the
returned error is non-nil. -/
def loadEnv : FileRead → Option Env × Bool
  | .openError => (none, true)
  | .scanned lines scanErr => (some (loadEnvLines lines), scanErr)

/-! ### The loader as the specification words it -/

/-- A line the specification says is skipped: empty after trimming white
space, or with `#` as its first non-space character. -/
def isSkipped (text : Str) : Bool :=
  (text.all isSpace) || (text.dropWhile isSpace).head? = some '#'

/-- The text before the first `=` of a line. -/
def beforeEq (text : Str) : Str := text.takeWhile (fun c => c != '=')

/-- The text after the first `=` of a line. -/
def afterEq (text : Str) : Str := (text.dropWhile (fun c => c != '=')).tail

/-- The entry a line contributes according to the specification: none for a
skipped line or a line without `=`, otherwise the trimmed text before the
first `=` as key and the trimmed text after it as value. -/
def lineEntry (text : Str) : Option (Str × Str) :=
  if isSkipped text = true then none
  else if '=' ∈ text then some (trimSpace (beforeEq text), trimSpace (afterEq text))
  else none

/-- A string has neither leading nor trailing white space. -/
def isTrimmed (s : Str) : Prop :=
  (∀ c, s.head? = some c → isSpace c = false) ∧ (∀ c, s.getLast? = some c → isSpace c = false)

/-! ## Numbers

The values the program handles are finite: the JSON decoder rejects a number
outside the `float64` range and JSON has no literal for NaN or an infinity,
and a duration is a 64-bit count of nanoseconds. In arithmetic and in
comparisons a finite `float64` is the rational number it stands for. Where
the program prints one, the sign of a zero shows as well: a utilization is an
`F64`, a rational or the negative zero that the JSON number `-0` decodes to. -/

/-- The number of binary digits of a natural number, by halving at most
`fuel` times. -/
def bitLenFuel : Nat → Nat → Nat
  | 0, _ => 0
  | fuel + 1, n => if n = 0 then 0 else bitLenFuel fuel (n / 2) + 1

/-- The number of binary digits of a natural number (`0` for `0`). -/
def bitLen (n : Nat) : Nat := bitLenFuel n n

/-- The binary exponent of a positive rational: the `e` with
`2 ^ e ≤ q < 2 ^ (e + 1)`. -/
def binExp (q : ℚ) : ℤ :=
  let k : ℤ := (bitLen q.num.natAbs : ℤ) - (bitLen q.den : ℤ)
  if (2 : ℚ) ^ k ≤ q then k else k - 1

/-- Rounding of a non-negative rational to the nearest integer, a tie going to
the even one. -/
def roundHalfEven (a : ℚ) : ℤ :=
  let f := ⌊a⌋
  let r := a - f
  if r < 1 / 2 then f
  else if 1 / 2 < r then f + 1
  else if f % 2 = 0 then f else f + 1

/-- The `float64` nearest to a rational, a tie going to the even significand
(IEEE 754 round-to-nearest-even with a 53-bit significand): the rounding every
`float64` operation and conversion ends with. The exponent is not bounded,
as no value of this program comes near the overflow or subnormal range. -/
def roundF64 (q : ℚ) : ℚ :=
  if q = 0 then 0
  else
    let a := |q|
    let ulp : ℚ := (2 : ℚ) ^ (binExp a - 52)
    let r : ℚ := (roundHalfEven (a / ulp) : ℚ) * ulp
    if q < 0 then -r else r

/-- Go conversion `int(x)` of a `float64`: truncation toward zero. -/
def truncToInt (x : ℚ) : ℤ := if 0 ≤ x then ⌊x⌋ else ⌈x⌉

/-- The character of a decimal digit. -/
def digitChar (d : Nat) : Char := Char.ofNat (48 + d % 10)

/-- The decimal digits of a natural number, at most `fuel + 1` of them. -/
def natDigitsFuel : Nat → Nat → Str
  | 0, n => [digitChar n]
  | fuel + 1, n =>
    if n < 10 then [digitChar n] else natDigitsFuel fuel (n / 10) ++ [digitChar n]

/-- The decimal numeral of a natural number. -/
def natDigits (n : Nat) : Str := natDigitsFuel n n

/-- The verb `%d` of `fmt` on an integer. -/
def fmtInt (i : ℤ) : Str :=
  if i < 0 then '-' :: natDigits i.natAbs else natDigits i.natAbs

/-- A finite `float64` with the sign of its zero: the rational number it
stands for (`ofRat 0` is the positive zero), or the negative zero. -/
inductive F64 where
  | ofRat (q : ℚ)
  | negZero
  deriving DecidableEq

/-- The number a finite `float64` stands for: what its comparisons see. -/
def F64.toRat : F64 → ℚ
  | .ofRat q => q
  | .negZero => 0

/-- The verb `%.0f` of `fmt` on a finite `float64`: the sign, then the
magnitude rounded to an integer, a tie going to the even one; the negative
zero prints as `-0`. -/
def fmtFloat0 : F64 → Str
  | .negZero => ['-', '0']
  | .ofRat x =>
    if x < 0 then '-' :: natDigits (roundHalfEven (-x)).natAbs
    else natDigits (roundHalfEven x).natAbs

/-! ## The usage fetcher -/

/-- The struct `UsagePeriod`. -/
structure UsagePeriod where
  utilization : F64
  resetsAt : Str
  deriving DecidableEq

/-- The struct `UsageData`; a `nil` period is `none`. -/
structure UsageData where
  fiveHour : Option UsagePeriod
  sevenDay : Option UsagePeriod
  deriving DecidableEq

/-- An HTTP request: method, URL and the headers set on it, in order. -/
structure Request where
  method : Str
  url : Str
  header : List (Str × Str)
  deriving DecidableEq

/-- What reading `resp.Body` to its end gives: the text received, and
whether the reading ended in a transport error (the connection lost, or the
timeout of the client, which still runs while the body is read) instead of
the end of the body. -/
structure Body where
  received : Str
  readError : Bool
  deriving DecidableEq

/-- An HTTP response, as far as `fetchUsage` reads it. -/
structure Response where
  statusCode : ℤ
  body : Body
  deriving DecidableEq

/-- The network as `fetchUsage` meets it: whether `http.NewRequest` accepts
a method and a URL, and what `client.Do` returns for a request (`none` for an
error: no connection, or the 10 second timeout before the response
arrives). -/
structure Http where
  newRequestOk : Str → Str → Bool
  send : Request → Option Response

/-- The URL `fetchUsage` asks. -/
def usageUrl (orgID : Str) : Str :=
  "https://claude.ai/api/organizations/".toList ++ orgID ++ "/usage".toList

/-- The request `fetchUsage` sends. -/
def usageRequest (orgID sessionKey : Str) : Request where
  method := "GET".toList
  url := usageUrl orgID
  header :=
    [("Cookie".toList, "sessionKey=".toList ++ sessionKey),
     ("User-Agent".toList,
       "Mozilla/5.0 (Macintosh; Intel Mac OS X 10_15_7) AppleWebKit/537.36".toList),
     ("Accept".toList, "application/json".toList)]

/-- The function `fetchUsage`; `decode` is `json.NewDecoder(resp.Body).Decode`
into a `UsageData`: `none` when it returns an error, be it for the text or
for the reading of it. -/
def fetchUsage (http : Http) (decode : Body → Option UsageData) (orgID sessionKey : Str) :
    Option UsageData × Str :=
  let url := usageUrl orgID
  if http.newRequestOk "GET".toList url = false then (none, "network_error".toList)
  else
    match http.send (usageRequest orgID sessionKey) with
    | none => (none, "network_error".toList)
    | some resp =>
      if resp.statusCode = 401 ∨ resp.statusCode = 403 then (none, "auth_error".toList)
      else
        match decode resp.body with
        | none => (none, "unavailable".toList)
        | some data =>
          if data.fiveHour = none ∧ data.sevenDay = none then (none, "unavailable".toList)
          else (some data, "ok".toList)

/-- A transport error somewhere in the round trip of `fetchUsage`: the
request cannot be built, `client.Do` returns an error, or the reading of the
body ends in one. -/
def transportError (http : Http) (orgID sessionKey : Str) : Bool :=
  if http.newRequestOk "GET".toList (usageUrl orgID) = false then true
  else
    match http.send (usageRequest orgID sessionKey) with
    | none => true
    | some resp => resp.body.readError

/-! ## Time until reset -/

/-- The constant `time.Hour`, in nanoseconds. -/
def hourNs : ℤ := 3600000000000

/-- The constant `time.Minute`, in nanoseconds. -/
def minuteNs : ℤ := 60000000000

/-- Go `Duration.Hours`: `float64(d / Hour) + float64(d % Hour) / (60*60*1e9)`. -/
def durationHours (d : ℤ) : ℚ :=
  roundF64 (roundF64 (d.tdiv hourNs) + roundF64 (roundF64 (d.tmod hourNs) / 3600000000000))

/-- Go `Duration.Minutes`: `float64(d / Minute) + float64(d % Minute) / (60*1e9)`. -/
def durationMinutes (d : ℤ) : ℚ :=
  roundF64 (roundF64 (d.tdiv minuteNs) + roundF64 (roundF64 (d.tmod minuteNs) / 60000000000))

/-- The part of `formatTimeUntil` that follows `time.Until`, on the duration
`delta` in nanoseconds. -/
def formatDelta (delta : ℤ) : Str :=
  if delta ≤ 0 then "now".toList
  else
    let totalHours := durationHours delta
    if totalHours < 24 then
      let hours := truncToInt totalHours
      let minutes := (truncToInt (durationMinutes delta)).tmod 60
      fmtInt hours ++ "h ".toList ++ fmtInt minutes ++ "m".toList
    else
      let days := truncToInt (roundF64 (totalHours / 24))
      let hours := (truncToInt totalHours).tmod 24
      fmtInt days ++ "d ".toList ++ fmtInt hours ++ "h".toList

/-- The function `formatTimeUntil`; `untilNs` is `time.Parse(time.RFC3339, _)`
followed by `time.Until`: `none` when the timestamp does not parse, else the
duration from now to the parsed time, in nanoseconds. -/
def formatTimeUntil (untilNs : Str → Option ℤ) (isoTimestamp : Str) : Str :=
  if isoTimestamp = [] then "unknown".toList
  else
    match untilNs isoTimestamp with
    | none => "unknown".toList
    | some delta => formatDelta delta

/-! ### Time until reset as the specification words it -/

/-- The piecewise definition of the specification, on the duration in
nanoseconds: `now` up to zero, whole hours and whole minutes modulo 60 below
24 hours, whole days and whole hours modulo 24 from 24 hours on. -/
def specTimeUntil (delta : ℤ) : Str :=
  if delta ≤ 0 then "now".toList
  else if delta < 24 * hourNs then
    fmtInt (delta / hourNs) ++ "h ".toList ++ fmtInt (delta / minuteNs % 60) ++ "m".toList
  else
    fmtInt (delta / (24 * hourNs)) ++ "d ".toList ++ fmtInt (delta / hourNs % 24) ++ "h".toList

/-! ## Colors -/

/-- The function `getColor`. -/
def getColor (pct : ℚ) : Str :=
  if 95 ≤ pct then "red".toList
  else if 80 ≤ pct then "orange".toList
  else []

/-- How severe a color is: none, orange, red. -/
def severity (color : Str) : Nat :=
  if color = "red".toList then 2 else if color = "orange".toList then 1 else 0

/-! ## Paths

The function `filepath.Join` of the Go library on Unix, on which `main`
builds its two paths: the non-empty tail of the elements is joined with `/`
and cleaned. `Clean` is stated on the elements between the slashes: empty
and `.` elements are dropped, `..` removes the element before it (at the
root it is dropped, and where nothing is left to remove it is kept). -/

/-- The pieces of a string between the occurrences of a separator, at least
one piece. -/
def splitOnChar (sep : Char) : Str → List Str
  | [] => [[]]
  | c :: cs =>
    if c = sep then [] :: splitOnChar sep cs
    else
      match splitOnChar sep cs with
      | [] => [[c]]
      | h :: t => (c :: h) :: t

/-- Go `strings.Join`. -/
def joinSep (sep : Str) : List Str → Str
  | [] => []
  | [x] => x
  | x :: y :: rest => x ++ sep ++ joinSep sep (y :: rest)

/-- One path element read by `Clean`; the elements kept so far are held
last first. -/
def cleanStep (rooted : Bool) (kept : List Str) (e : Str) : List Str :=
  if e = [] ∨ e = ['.'] then kept
  else if e = ['.', '.'] then
    match kept with
    | top :: rest =>
      if top = ['.', '.'] then (if rooted then kept else e :: kept) else rest
    | [] => if rooted then kept else [e]
  else e :: kept

/-- Go `filepath.Clean` on Unix. -/
def clean (path : Str) : Str :=
  if path = [] then ['.']
  else
    let rooted : Bool := path.head? = some '/'
    let kept := (splitOnChar '/' path).foldl (cleanStep rooted) []
    let out := (if rooted then ['/'] else []) ++ joinSep ['/'] kept.reverse
    if out = [] then ['.'] else out

/-- Go `filepath.Join` on Unix. -/
def filepathJoin (elem : List Str) : Str :=
  match elem.dropWhile (fun e => e.isEmpty) with
  | [] => []
  | rest => clean (joinSep ['/'] rest)

/-! ## The program -/

/-- What a run of `main` comes to: it returns after printing these items,
one `Println` (or `Printf` ending in a line break) each, or it stops at a
nil pointer dereference before its first print. -/
inductive Run where
  | exit (items : List Str)
  | nilDereference
  deriving DecidableEq

/-- The text the printed items make on standard output: each item and a
line break. -/
def printed : List Str → Str
  | [] => []
  | item :: rest => item ++ '\n' :: printed rest

/-- The standard output of a run. -/
def Run.stdout : Run → Str
  | .exit items => printed items
  | .nilDereference => []

/-- The lines of a text: the pieces between its line breaks, a final line
break ending the last line. -/
def textLines (t : Str) : List Str :=
  match t.getLast? with
  | none => []
  | some c => if c = '\n' then (splitOnChar '\n' t).dropLast else splitOnChar '\n' t

/-- The function `printError`. -/
def printError (header : Str) (lines : List Str) : Run :=
  Run.exit (header :: "---".toList :: lines)

/-- The constant `configDir`. -/
def configDir : Str := ".config/menubar-utils".toList

/-- The path `envFile` of `main`. -/
def envFilePath (homeDir : Str) : Str :=
  filepathJoin [homeDir, configDir, "claude-usage.env".toList]

/-- The path `configDirPath` of `main`. -/
def configDirPath (homeDir : Str) : Str := filepathJoin [homeDir, configDir]

/-- What a run of `main` finds around it. -/
structure World where
  /-- Result of `os.UserHomeDir`, `none` for an error. -/
  homeDir : Option Str
  /-- What opening and scanning the file at a path gives. -/
  readFile : Str → FileRead
  /-- The network. -/
  http : Http
  /-- The JSON decoding of a response body, `none` for an error. -/
  decode : Body → Option UsageData
  /-- Result of `time.Parse` then `time.Until`, `none` for a parse error. -/
  untilNs : Str → Option ℤ

/-- The read `env[key]` on the map `loadEnv` returned; reading a nil map
gives the zero value. -/
def envGet (env : Option Env) (key : Str) : Str :=
  match env with
  | none => []
  | some m => m.get key

/-- The color adornment of the header: `main` lines 98 to 107. -/
def colorStr (sessionPct weeklyPct : F64) : Str :=
  let maxPct := if sessionPct.toRat < weeklyPct.toRat then weeklyPct else sessionPct
  let color := getColor maxPct.toRat
  if color ≠ [] then " | color=".toList ++ color else []

/-- The function `main` from the fetched status on: lines 60 to 116. -/
def report (untilNs : Str → Option ℤ) (envFile : Str) (data : Option UsageData)
    (status : Str) : Run :=
  if status = "network_error".toList then
    printError "C: --/-- | color=gray".toList ["Network error".toList]
  else if status = "auth_error".toList then
    Run.exit
      ["C: AUTH | color=red".toList, "---".toList,
       "Session expired - refresh cookie".toList, "---".toList,
       "1. Open claude.ai in browser".toList,
       "2. DevTools > Application > Cookies".toList,
       "3. Copy sessionKey value".toList, "---".toList,
       "Edit config | bash=open param1=".toList ++ envFile ++ " terminal=false".toList]
  else if status = "unavailable".toList then
    Run.exit
      ["C: N/A | color=gray".toList, "---".toList,
       "Usage data unavailable".toList, "Anthropic API returning nulls".toList,
       "---".toList, "Refresh | refresh=true".toList]
  else
    match data with
    | none => Run.nilDereference
    | some d =>
      let sessionPct := match d.fiveHour with
        | some p => p.utilization
        | none => F64.ofRat 0
      let sessionReset := match d.fiveHour with
        | some p => p.resetsAt
        | none => []
      let weeklyPct := match d.sevenDay with
        | some p => p.utilization
        | none => F64.ofRat 0
      let weeklyReset := match d.sevenDay with
        | some p => p.resetsAt
        | none => []
      Run.exit
        ["C: ".toList ++ fmtFloat0 sessionPct ++ "%/".toList ++ fmtFloat0 weeklyPct
            ++ "%".toList ++ colorStr sessionPct weeklyPct,
         "---".toList,
         "Session: ".toList ++ fmtFloat0 sessionPct ++ "% (resets in ".toList
            ++ formatTimeUntil untilNs sessionReset ++ ")".toList,
         "Weekly: ".toList ++ fmtFloat0 weeklyPct ++ "% (resets in ".toList
            ++ formatTimeUntil untilNs weeklyReset ++ ")".toList,
         "---".toList,
         "Refresh | refresh=true".toList,
         "Edit config | bash=open param1=".toList ++ envFile ++ " terminal=false".toList]

/-- The function `main`: the calls of `fetchUsage` the run makes, each with
its two arguments, and what the run comes to. -/
def mainRun (w : World) : List (Str × Str) × Run :=
  match w.homeDir with
  | none =>
    ([], printError "C: ERR | color=red".toList ["Cannot determine home directory".toList])
  | some homeDir =>
    let envFile := envFilePath homeDir
    let loaded := loadEnv (w.readFile envFile)
    if loaded.2 = true then
      let configDirPath := configDirPath homeDir
      ([], printError "C: CFG | color=red".toList
        ["Cannot read config file".toList,
         "Expected: ".toList ++ envFile,
         "---".toList,
         "Create config dir | bash=mkdir param1=-p param2=".toList ++ configDirPath
            ++ " terminal=false".toList,
         "Open config dir | bash=open param1=".toList ++ configDirPath
            ++ " terminal=false".toList])
    else
      let orgID := envGet loaded.1 "CLAUDE_ORG_ID".toList
      let sessionKey := envGet loaded.1 "CLAUDE_SESSION_KEY".toList
      if orgID = [] ∨ sessionKey = [] then
        ([], printError "C: CFG | color=red".toList
          ["Missing CLAUDE_ORG_ID or CLAUDE_SESSION_KEY".toList,
           "Edit config | bash=open param1=".toList ++ envFile ++ " terminal=false".toList])
      else
        let fetched := fetchUsage w.http w.decode orgID sessionKey
        ([(orgID, sessionKey)], report w.untilNs envFile fetched.1 fetched.2)

/-- What a run of `main` comes to. -/
def main (w : World) : Run := (mainRun w).2

/-- The calls of `fetchUsage` a run of `main` makes. -/
def fetchCalls (w : World) : List (Str × Str) := (mainRun w).1

/-! ### Paths as the specification words them -/

/-- A plain path element: not empty, without a slash, and neither `.` nor
`..`. -/
def isPathName (e : Str) : Prop := e ≠ [] ∧ '/' ∉ e ∧ e ≠ ['.'] ∧ e ≠ ['.', '.']

/-! ### The header as the specification words it -/

/-- The utilization of a period, an absent period counting as 0. -/
def periodPct (p : Option UsagePeriod) : F64 :=
  match p with
  | some q => q.utilization
  | none => F64.ofRat 0

/-- The header of an `ok` snapshot according to the specification: the two
utilizations with zero decimals, then the color chosen from their maximum. -/
def specHeader (d : UsageData) : Str :=
  let m := max (periodPct d.fiveHour).toRat (periodPct d.sevenDay).toRat
  "C: ".toList ++ fmtFloat0 (periodPct d.fiveHour) ++ "%/".toList
    ++ fmtFloat0 (periodPct d.sevenDay) ++ "%".toList
    ++ (if 95 ≤ m then " | color=red".toList
        else if 80 ≤ m then " | color=orange".toList
        else [])

/-! ### Example runs -/

/-- A response body with both periods null. -/
def bodyNulls : Str := "\x7b\"five_hour\": null, \"seven_day\": null\x7d".toList

/-- A response body with utilizations 42 and 96. -/
def body4296 : Str :=
  ("\x7b\"five_hour\": \x7b\"utilization\": 42, \"resets_at\": \"t1\"\x7d, "
    ++ "\"seven_day\": \x7b\"utilization\": 96, \"resets_at\": \"t2\"\x7d\x7d").toList

/-- A response body with utilizations -0 and 50. -/
def bodyNegZero : Str :=
  ("\x7b\"five_hour\": \x7b\"utilization\": -0, \"resets_at\": \"t1\"\x7d, "
    ++ "\"seven_day\": \x7b\"utilization\": 50, \"resets_at\": \"t2\"\x7d\x7d").toList

/-- A decoder for the examples: it decodes the three bodies above and
returns an error for every other text, the empty one included. -/
def decodeExample (b : Body) : Option UsageData :=
  if b.received = bodyNulls then some ⟨none, none⟩
  else if b.received = body4296 then
    some ⟨some ⟨F64.ofRat 42, "t1".toList⟩, some ⟨F64.ofRat 96, "t2".toList⟩⟩
  else if b.received = bodyNegZero then
    some ⟨some ⟨F64.negZero, "t1".toList⟩, some ⟨F64.ofRat 50, "t2".toList⟩⟩
  else none

/-- A network that accepts every request and answers it with one response. -/
def httpAnswering (resp : Response) : Http := ⟨fun _ _ => true, fun _ => some resp⟩

/-- A network on which the response arrives with status 200 and the timeout
strikes before the first byte of the body. -/
def httpTimeoutInBody : Http := httpAnswering ⟨200, ⟨[], true⟩⟩

/-- The config file with both keys. -/
def configBothKeys : FileRead :=
  FileRead.scanned ["CLAUDE_ORG_ID=org".toList, "CLAUDE_SESSION_KEY=key".toList] false

/-- A run in which the home directory cannot be resolved. -/
def worldNoHome : World :=
  ⟨none, fun _ => FileRead.openError, httpAnswering ⟨200, ⟨bodyNulls, false⟩⟩, decodeExample,
    fun _ => none⟩

/-- A run in which the config file does not exist. -/
def worldNoConfig : World :=
  ⟨some "/Users/u".toList, fun _ => FileRead.openError,
    httpAnswering ⟨200, ⟨bodyNulls, false⟩⟩, decodeExample, fun _ => none⟩

/-- A run with both keys configured, in which the service reports 42 percent
of the session window and 96 percent of the weekly window. -/
def worldOk : World :=
  ⟨some "/Users/u".toList, fun _ => configBothKeys,
    httpAnswering ⟨200, ⟨body4296, false⟩⟩, decodeExample, fun _ => some 3600000000000⟩

/-- A run with both keys configured, in which the service reports the
utilizations -0 and 50. -/
def worldNegZero : World :=
  ⟨some "/Users/u".toList, fun _ => configBothKeys,
    httpAnswering ⟨200, ⟨bodyNegZero, false⟩⟩, decodeExample, fun _ => some 3600000000000⟩

end ClaudeUsage

namespace ClaudeUsage

/-! ## Facts about trimming -/

theorem trimRight_eq_rdropWhile (s : Str) : trimRight s = s.rdropWhile isSpace := rfl

theorem trimRight_append_spaces (s ws : Str) (h : ∀ c ∈ ws, isSpace c = true) :
    trimRight (s ++ ws) = trimRight s := by
  unfold trimRight
  rw [List.reverse_append, List.dropWhile_append_of_pos]
  intro c hc
  exact h c (List.mem_reverse.mp hc)

theorem trimRight_of_getLast (s : Str) (h : ∀ c, s.getLast? = some c → isSpace c = false) :
    trimRight s = s := by
  rw [trimRight_eq_rdropWhile, List.rdropWhile_eq_self_iff]
  intro hl hp
  have := h (s.getLast hl) (List.getLast?_eq_getLast s hl)
  simp [this] at hp

theorem trimLeft_spaces_append (ws s : Str) (h : ∀ c ∈ ws, isSpace c = true) :
    trimLeft (ws ++ s) = trimLeft s := by
  unfold trimLeft
  exact List.dropWhile_append_of_pos h

theorem trimLeft_of_head (s : Str) (h : ∀ c, s.head? = some c → isSpace c = false) :
    trimLeft s = s := by
  unfold trimLeft
  cases s with
  | nil => rfl
  | cons a t => simp [List.dropWhile_cons, h a rfl]

theorem trimLeft_all_spaces (ws : Str) (h : ∀ c ∈ ws, isSpace c = true) : trimLeft ws = [] := by
  unfold trimLeft
  simpa using h

/-- A string framed by white space trims to its trimmed core. -/
theorem trimSpace_unique (ws1 core ws2 : Str) (h1 : ∀ c ∈ ws1, isSpace c = true)
    (h2 : ∀ c ∈ ws2, isSpace c = true) (hc : isTrimmed core) :
    trimSpace (ws1 ++ core ++ ws2) = core := by
  unfold trimSpace
  rw [List.append_assoc, trimLeft_spaces_append _ _ h1]
  cases core with
  | nil => simp [trimLeft_all_spaces ws2 h2, trimRight]
  | cons a t =>
    have ha : isSpace a = false := hc.1 a rfl
    rw [trimLeft_of_head]
    · rw [trimRight_append_spaces _ _ h2, trimRight_of_getLast _ hc.2]
    · intro c hcc
      simp at hcc
      exact hcc ▸ ha

theorem isTrimmed_trimSpace (s : Str) : isTrimmed (trimSpace s) := by
  constructor
  · intro c hc
    unfold trimSpace at hc
    have hpre : trimRight (trimLeft s) <+: trimLeft s := by
      rw [trimRight_eq_rdropWhile]; exact List.rdropWhile_prefix isSpace (trimLeft s)
    obtain ⟨r, hr⟩ := hpre
    have hh : (trimLeft s).head? = some c := by
      rw [← hr]
      cases hx : trimRight (trimLeft s) with
      | nil => rw [hx] at hc; simp at hc
      | cons a t => rw [hx] at hc; simpa using hc
    have := List.head?_dropWhile_not isSpace s
    unfold trimLeft at hh
    rw [hh] at this
    simpa using this
  · intro c hc
    unfold trimSpace at hc
    rw [trimRight_eq_rdropWhile] at hc
    have hne : (trimLeft s).rdropWhile isSpace ≠ [] := by
      intro h; rw [h] at hc; simp at hc
    have := List.rdropWhile_last_not isSpace (trimLeft s) hne
    rw [List.getLast?_eq_getLast _ hne] at hc
    simp at hc
    rw [← hc]
    simpa using this

/-- Every string is its trimmed core framed by white space. -/
theorem trimSpace_decomp (s : Str) :
    ∃ ws1 ws2 : Str, (∀ c ∈ ws1, isSpace c = true) ∧ (∀ c ∈ ws2, isSpace c = true) ∧
      s = ws1 ++ trimSpace s ++ ws2 := by
  refine ⟨s.takeWhile isSpace, ((trimLeft s).reverse.takeWhile isSpace).reverse, ?_, ?_, ?_⟩
  · intro c hc
    exact List.mem_takeWhile_imp hc
  · intro c hc
    exact List.mem_takeWhile_imp (List.mem_reverse.mp hc)
  · have h1 : s = s.takeWhile isSpace ++ trimLeft s :=
      (List.takeWhile_append_dropWhile isSpace s).symm
    have h2 : trimLeft s = trimSpace s ++ ((trimLeft s).reverse.takeWhile isSpace).reverse := by
      unfold trimSpace trimRight
      rw [← List.reverse_append, List.takeWhile_append_dropWhile, List.reverse_reverse]
    rw [List.append_assoc, ← h2, ← h1]

theorem trimSpace_spaces_append (ws s : Str) (h : ∀ c ∈ ws, isSpace c = true) :
    trimSpace (ws ++ s) = trimSpace s := by
  unfold trimSpace
  rw [trimLeft_spaces_append _ _ h]

theorem trimSpace_append_spaces (s ws : Str) (h : ∀ c ∈ ws, isSpace c = true) :
    trimSpace (s ++ ws) = trimSpace s := by
  obtain ⟨a, b, ha, hb, hs⟩ := trimSpace_decomp s
  have : s ++ ws = a ++ trimSpace s ++ (b ++ ws) := by
    conv_lhs => rw [hs]
    simp
  rw [this]
  apply trimSpace_unique _ _ _ ha _ (isTrimmed_trimSpace s)
  intro c hc
  rcases List.mem_append.mp hc with h' | h'
  · exact hb c h'
  · exact h c h'

theorem trimSpace_eq_nil_iff (s : Str) : trimSpace s = [] ↔ s.all isSpace = true := by
  constructor
  · intro h
    obtain ⟨a, b, ha, hb, hs⟩ := trimSpace_decomp s
    rw [h] at hs
    rw [hs]
    simp only [List.append_nil, List.all_append, Bool.and_eq_true, List.all_eq_true]
    exact ⟨ha, hb⟩
  · intro h
    have h' : ∀ c ∈ s, isSpace c = true := by simpa using h
    unfold trimSpace
    rw [trimLeft_all_spaces s h']
    rfl

theorem head?_trimSpace (s : Str) : (trimSpace s).head? = (s.dropWhile isSpace).head? := by
  obtain ⟨a, b, ha, hb, hs⟩ := trimSpace_decomp s
  conv_rhs => rw [hs]
  rw [List.append_assoc, List.dropWhile_append_of_pos ha]
  cases hx : trimSpace s with
  | nil => simp [List.dropWhile_eq_nil_iff.mpr hb]
  | cons x t =>
    have := (isTrimmed_trimSpace s).1 x (by rw [hx]; rfl)
    simp [List.dropWhile_cons, this]

/-! ## The loop body and the entry of a line -/

theorem isSpace_eq_sign : isSpace '=' = false := by decide

theorem hasPrefix_hash (l : Str) : hasPrefix l ['#'] = true ↔ l.head? = some '#' := by
  cases l with
  | nil => simp [hasPrefix, List.isPrefixOf]
  | cons a t =>
    simp only [hasPrefix, List.isPrefixOf, Bool.and_true, beq_iff_eq, List.head?_cons,
      Option.some.injEq]
    exact eq_comm

theorem skip_iff (text : Str) :
    (trimSpace text = [] ∨ hasPrefix (trimSpace text) ['#'] = true) ↔ isSkipped text = true := by
  rw [trimSpace_eq_nil_iff, hasPrefix_hash, head?_trimSpace]
  simp [isSkipped]

theorem mem_eq_trimSpace (text : Str) : '=' ∈ trimSpace text ↔ '=' ∈ text := by
  obtain ⟨a, b, ha, hb, hs⟩ := trimSpace_decomp text
  constructor
  · intro h
    rw [hs]
    simp [h]
  · intro h
    rw [hs] at h
    simp only [List.mem_append] at h
    rcases h with (h | h) | h
    · have := ha _ h
      rw [isSpace_eq_sign] at this
      exact absurd this (by decide)
    · exact h
    · have := hb _ h
      rw [isSpace_eq_sign] at this
      exact absurd this (by decide)

theorem dropWhile_ne_of_mem (l : Str) (h : '=' ∈ l) :
     l.dropWhile (fun c => c != '=') = '=' :: afterEq l := by
  unfold afterEq
  induction l with
  | nil => simp at h
  | cons x t ih =>
    by_cases hx : x = '='
    · subst hx
      simp [List.dropWhile_cons]
    · have ht : '=' ∈ t := by
        rcases List.mem_cons.mp h with h' | h'
        · exact absurd h'.symm hx
        · exact h'
      simp only [List.dropWhile_cons, bne_iff_ne, ne_eq, hx, not_false_eq_true, if_true]
      exact ih ht

theorem dropWhile_ne_of_not_mem (l : Str) (h : '=' ∉ l) :
     l.dropWhile (fun c => c != '=') = [] := by
  rw [List.dropWhile_eq_nil_iff]
  intro x hx
  simp only [bne_iff_ne, ne_eq]
  intro hxe
  exact h (hxe ▸ hx)

theorem splitN_two (l : Str) :
    splitN l '=' 2 = if '=' ∈ l then [beforeEq l, afterEq l] else [l] := by
  unfold splitN
  rw [List.span_eq_take_drop]
  by_cases h : '=' ∈ l
  · simp only [h, if_true]
    rw [dropWhile_ne_of_mem l h]
    simp [splitN, beforeEq]
  · simp only [h, if_false]
    rw [dropWhile_ne_of_not_mem l h]
    have : l.takeWhile (fun c => c != '=') = l := by
      rw [List.takeWhile_eq_self_iff]
      intro x hx
      simp only [bne_iff_ne, ne_eq]
      intro hxe
      exact h (hxe ▸ hx)
    simp [this]

theorem spaces_ne_eq (ws : Str) (h : ∀ c ∈ ws, isSpace c = true) :
    ∀ c ∈ ws, (c != '=') = true := by
  intro c hc
  simp only [bne_iff_ne, ne_eq]
  intro hce
  have := h c hc
  rw [hce, isSpace_eq_sign] at this
  exact absurd this (by decide)

theorem beforeEq_frame (a l b : Str) (ha : ∀ c ∈ a, isSpace c = true) (hl : '=' ∈ l) :
    beforeEq (a ++ l ++ b) = a ++ beforeEq l := by
  unfold beforeEq
  rw [List.append_assoc, List.takeWhile_append_of_pos (spaces_ne_eq a ha), List.takeWhile_append]
  have hlt : (List.takeWhile (fun c => c != '=') l).length ≠ l.length := by
    intro hlen
    have h1 := List.takeWhile_append_dropWhile (fun c => c != '=') l
    have h2 := congrArg List.length h1
    rw [List.length_append, hlen, dropWhile_ne_of_mem l hl] at h2
    simp at h2
  simp [hlt]

theorem afterEq_frame (a l b : Str) (ha : ∀ c ∈ a, isSpace c = true) (hl : '=' ∈ l) :
    afterEq (a ++ l ++ b) = afterEq l ++ b := by
  unfold afterEq
  rw [List.append_assoc, List.dropWhile_append_of_pos (spaces_ne_eq a ha), List.dropWhile_append]
  have h := dropWhile_ne_of_mem l hl
  rw [h]
  simp

/-- The loop body of `loadEnv` stores the entry of the line, if it has one. -/
theorem loadEnvStep_eq (env : Env) (text : Str) :
    loadEnvStep env text =
      match lineEntry text with
      | some e => env.set e.1 e.2
      | none => env := by
  unfold loadEnvStep lineEntry
  simp only [skip_iff]
  by_cases hs : isSkipped text = true
  · simp [hs]
  · simp only [hs, if_false]
    rw [splitN_two]
    by_cases he : '=' ∈ text
    · have he' := (mem_eq_trimSpace text).mpr he
      obtain ⟨a, b, ha, hb, hdec⟩ := trimSpace_decomp text
      have hb1 : trimSpace (beforeEq text) = trimSpace (beforeEq (trimSpace text)) := by
        conv_lhs => rw [hdec]
        rw [beforeEq_frame a _ b ha he', trimSpace_spaces_append _ _ ha]
      have hb2 : trimSpace (afterEq text) = trimSpace (afterEq (trimSpace text)) := by
        conv_lhs => rw [hdec]
        rw [afterEq_frame a _ b ha he', trimSpace_append_spaces _ _ hb]
      simp [he, he', hb1, hb2]
    · have he' : '=' ∉ trimSpace text := fun h => he ((mem_eq_trimSpace text).mp h)
      simp [he, he']

/-! ## The loader keeps the last value of each key -/

theorem loadEnvLines_concat (lines : List Str) (x : Str) :
    loadEnvLines (lines ++ [x]) = loadEnvStep (loadEnvLines lines) x := by
  simp [loadEnvLines, List.foldl_append]

theorem loadEnvStep_some (env : Env) (x k v : Str) (h : lineEntry x = some (k, v)) :
    loadEnvStep env x = env.set k v := by
  rw [loadEnvStep_eq, h]

theorem loadEnvStep_none (env : Env) (x : Str) (h : lineEntry x = none) :
    loadEnvStep env x = env := by
  rw [loadEnvStep_eq, h]

theorem loadEnvStep_other (env : Env) (x k : Str) (h : ∀ v, lineEntry x ≠ some (k, v)) :
    loadEnvStep env x k = env k := by
  rw [loadEnvStep_eq]
  cases he : lineEntry x with
  | none => rfl
  | some e =>
    obtain ⟨k', v'⟩ := e
    have hk : k ≠ k' := by
      intro hkk
      exact h v' (by rw [he, hkk])
    simp [Env.set, hk]

theorem concat_eq_split (lines pre post : List Str) (x l : Str)
    (h : lines ++ [x] = pre ++ l :: post) :
    (post = [] ∧ lines = pre ∧ x = l) ∨ ∃ post', post = post' ++ [x] ∧ lines = pre ++ l :: post' := by
  rcases List.eq_nil_or_concat post with hp | ⟨post', y, hp⟩
  · subst hp
    left
    have h' : lines ++ [x] = pre ++ [l] := h
    have := List.append_inj' h' rfl
    exact ⟨rfl, this.1, by simpa using this.2⟩
  · right
    have hp' : post = post' ++ [y] := by simpa using hp
    subst hp'
    have h' : lines ++ [x] = (pre ++ l :: post') ++ [y] := by simpa using h
    have := List.append_inj' h' rfl
    have hxy : x = y := by simpa using this.2
    exact ⟨post', by rw [hxy], this.1⟩

theorem loadEnvLines_eq_some_iff (lines : List Str) (k v : Str) :
    loadEnvLines lines k = some v ↔
      ∃ pre l post, lines = pre ++ l :: post ∧ lineEntry l = some (k, v) ∧
        ∀ l' ∈ post, ∀ v', lineEntry l' ≠ some (k, v') := by
  induction lines using List.reverseRecOn generalizing v with
  | nil => simp [loadEnvLines, Env.empty]
  | append_singleton lines x ih =>
    rw [loadEnvLines_concat]
    by_cases hx : ∃ w, lineEntry x = some (k, w)
    · obtain ⟨w, hw⟩ := hx
      rw [loadEnvStep_some _ _ _ _ hw]
      simp only [Env.set, if_true, Option.some.injEq]
      constructor
      · intro hwv
        subst hwv
        exact ⟨lines, x, [], rfl, hw, by simp⟩
      · rintro ⟨pre, l, post, hsplit, hl, hpost⟩
        rcases concat_eq_split _ _ _ _ _ hsplit with ⟨_, _, hxl⟩ | ⟨post', hp, _⟩
        · subst hxl
          rw [hw] at hl
          simpa using hl
        · exact absurd hw (hpost x (by simp [hp]) w)
    · have hx' : ∀ w, lineEntry x ≠ some (k, w) := fun w hw => hx ⟨w, hw⟩
      rw [loadEnvStep_other _ _ _ hx', ih]
      constructor
      · rintro ⟨pre, l, post, hsplit, hl, hpost⟩
        refine ⟨pre, l, post ++ [x], by simp [hsplit], hl, ?_⟩
        intro l' hl' v'
        rcases List.mem_append.mp hl' with h | h
        · exact hpost l' h v'
        · have : l' = x := by simpa using h
          subst this
          exact hx' v'
      · rintro ⟨pre, l, post, hsplit, hl, hpost⟩
        rcases concat_eq_split _ _ _ _ _ hsplit with ⟨_, _, hxl⟩ | ⟨post', hp, hlines⟩
        · subst hxl
          exact absurd hl (hx' v)
        · refine ⟨pre, l, post', hlines, hl, ?_⟩
          intro l' hl' v'
          exact hpost l' (by simp [hp, hl']) v'

theorem loadEnvLines_isSome_iff (lines : List Str) (k : Str) :
    (loadEnvLines lines k).isSome = true ↔ ∃ l ∈ lines, ∃ v, lineEntry l = some (k, v) := by
  induction lines using List.reverseRecOn with
  | nil => simp [loadEnvLines, Env.empty]
  | append_singleton lines x ih =>
    rw [loadEnvLines_concat]
    by_cases hx : ∃ w, lineEntry x = some (k, w)
    · obtain ⟨w, hw⟩ := hx
      rw [loadEnvStep_some _ _ _ _ hw]
      simp only [Env.set, if_true, Option.isSome_some, true_iff]
      exact ⟨x, by simp, w, hw⟩
    · have hx' : ∀ w, lineEntry x ≠ some (k, w) := fun w hw => hx ⟨w, hw⟩
      rw [loadEnvStep_other _ _ _ hx', ih]
      constructor
      · rintro ⟨l, hl, v, hv⟩
        exact ⟨l, by simp [hl], v, hv⟩
      · rintro ⟨l, hl, v, hv⟩
        rcases List.mem_append.mp hl with h | h
        · exact ⟨l, h, v, hv⟩
        · have : l = x := by simpa using h
          subst this
          exact absurd hv (hx' v)

theorem Env.set_set (env : Env) (k v w : Str) : (env.set k v).set k w = env.set k w := by
  funext x
  by_cases h : x = k <;> simp [Env.set, h]

theorem lineEntry_skipped (text : Str) (h : isSkipped text = true) : lineEntry text = none := by
  simp [lineEntry, h]

theorem loadEnvLines_skip (pre post : List Str) (l : Str) (h : isSkipped l = true) :
    loadEnvLines (pre ++ l :: post) = loadEnvLines (pre ++ post) := by
  simp only [loadEnvLines, List.foldl_append, List.foldl_cons]
  rw [loadEnvStep_none _ _ (lineEntry_skipped l h)]

theorem loadEnvLines_all_skipped (lines : List Str) (h : ∀ l ∈ lines, isSkipped l = true) :
    loadEnvLines lines = Env.empty := by
  induction lines with
  | nil => rfl
  | cons x t ih =>
    have := loadEnvLines_skip [] t x (h x (by simp))
    simp only [List.nil_append] at this
    rw [this]
    exact ih (fun l hl => h l (by simp [hl]))

theorem mem_of_mem_trimSpace (s : Str) (c : Char) (h : c ∈ trimSpace s) : c ∈ s := by
  obtain ⟨a, b, _, _, hs⟩ := trimSpace_decomp s
  rw [hs]
  simp [h]

theorem head?_dropWhile_takeWhile (p q : Char → Bool) (l : Str) (c : Char)
    (h : ((l.takeWhile q).dropWhile p).head? = some c) : (l.dropWhile p).head? = some c := by
  induction l with
  | nil => simp at h
  | cons x t ih =>
    by_cases hq : q x = true
    · rw [List.takeWhile_cons_of_pos hq] at h
      by_cases hp : p x = true
      · rw [List.dropWhile_cons_of_pos hp] at h
        rw [List.dropWhile_cons_of_pos hp]
        exact ih h
      · rw [List.dropWhile_cons_of_neg hp] at h
        rw [List.dropWhile_cons_of_neg hp]
        simpa using h
    · rw [List.takeWhile_cons_of_neg hq] at h
      simp at h

theorem lineEntry_key_value (text k v : Str) (h : lineEntry text = some (k, v)) :
    '=' ∉ k ∧ k.head? ≠ some '#' ∧ isTrimmed k ∧ isTrimmed v := by
  unfold lineEntry at h
  by_cases hs : isSkipped text = true
  · simp [hs] at h
  · by_cases he : '=' ∈ text
    · simp only [hs, he, if_true, if_false, Option.some.injEq, Prod.mk.injEq, Bool.false_eq_true] at h
      obtain ⟨hk, hv⟩ := h
      subst hk
      subst hv
      refine ⟨?_, ?_, isTrimmed_trimSpace _, isTrimmed_trimSpace _⟩
      · intro hmem
        have h1 := mem_of_mem_trimSpace _ _ hmem
        have h2 := List.mem_takeWhile_imp h1
        simp at h2
      · intro hh
        rw [head?_trimSpace] at hh
        have h3 := head?_dropWhile_takeWhile _ _ _ _ hh
        apply hs
        simp [isSkipped, h3]
    · simp [hs, he] at h

/-! ## The claims about the config loader -/

/-- C5: for every sequence of config lines (whatever the scanner reports at
the end), the mapping `loadEnv` returns keeps the last value of each key: a
key is in the mapping exactly when some line has an entry with that key, the
value stored is the value of the last such line in file order, and the two
lines `KEY=a`, `KEY=b` give the mapping that holds only `KEY: b`. -/
theorem loadEnv_keeps_last_value :
    (∀ (lines : List Str) (scanErr : Bool),
      (loadEnv (FileRead.scanned lines scanErr)).1 = some (loadEnvLines lines)) ∧
    (∀ (lines : List Str) (k : Str),
      (loadEnvLines lines k).isSome = true ↔ ∃ l ∈ lines, ∃ v, lineEntry l = some (k, v)) ∧
    (∀ (lines : List Str) (k v : Str),
      loadEnvLines lines k = some v ↔
        ∃ pre l post, lines = pre ++ l :: post ∧ lineEntry l = some (k, v) ∧
          ∀ l' ∈ post, ∀ v', lineEntry l' ≠ some (k, v')) ∧
    loadEnvLines ["KEY=a".toList, "KEY=b".toList] = Env.empty.set "KEY".toList "b".toList := by
  refine ⟨fun _ _ => rfl, loadEnvLines_isSome_iff, loadEnvLines_eq_some_iff, ?_⟩
  have ha : lineEntry "KEY=a".toList = some ("KEY".toList, "a".toList) := by decide
  have hb : lineEntry "KEY=b".toList = some ("KEY".toList, "b".toList) := by decide
  simp only [loadEnvLines, List.foldl_cons, List.foldl_nil]
  rw [loadEnvStep_some _ _ _ _ ha, loadEnvStep_some _ _ _ _ hb, Env.set_set]

/-- C6: blank and comment lines never produce an entry: inserting (or,
read from right to left, deleting) at any position a line that is empty
after trimming or whose first non-space character is `#` leaves the mapping
unchanged, a file made only of such lines gives the empty mapping, and the
line `  # A=1` is such a line although it contains `=`. -/
theorem loadEnv_ignores_blank_and_comment :
    (∀ (pre post : List Str) (l : Str), isSkipped l = true →
      loadEnvLines (pre ++ l :: post) = loadEnvLines (pre ++ post)) ∧
    (∀ lines : List Str, (∀ l ∈ lines, isSkipped l = true) → loadEnvLines lines = Env.empty) ∧
    isSkipped "  # A=1".toList = true ∧ '=' ∈ "  # A=1".toList := by
  exact ⟨loadEnvLines_skip, loadEnvLines_all_skipped, by decide, by decide⟩

/-- The claim C6 at a concrete file: a comment line that contains `=`, put
between two assignments, changes nothing, and a file of a blank line and a
comment line gives the empty mapping. -/
theorem loadEnv_ignores_blank_and_comment_witness :
    loadEnvLines ["A=1".toList, "  # A=2".toList, "B=3".toList] =
      loadEnvLines ["A=1".toList, "B=3".toList] ∧
    loadEnvLines ["   ".toList, "# A=1".toList] = Env.empty :=
  ⟨loadEnv_ignores_blank_and_comment.1 ["A=1".toList] ["B=3".toList] "  # A=2".toList
      (by decide),
    loadEnv_ignores_blank_and_comment.2.1 ["   ".toList, "# A=1".toList] (by decide)⟩

theorem Env.set_same (env : Env) (k v : Str) : env.set k v k = some v := by
  simp [Env.set]

theorem Env.set_other (env : Env) (k v x : Str) (h : x ≠ k) : env.set k v x = env x := by
  simp [Env.set, h]

/-- C7: a line that is neither blank nor a comment is split once on its
first `=`. With an `=`, reading the trimmed text before the first `=` as key
gives afterwards the trimmed text after it as value, every other key reads as
before, and the same is read from the file that ends with the line (` A = b=c `
stores `b=c` under `A`). Without an `=` every key reads as before. Hence no
key of the result contains `=` or starts with `#`, and keys and values carry
no leading or trailing white space. -/
theorem loadEnv_splits_on_first_eq :
    (∀ (env : Env) (text : Str), isSkipped text = false → '=' ∈ text →
      loadEnvStep env text (trimSpace (beforeEq text)) = some (trimSpace (afterEq text)) ∧
      ∀ k, k ≠ trimSpace (beforeEq text) → loadEnvStep env text k = env k) ∧
    (∀ (lines : List Str) (text : Str), isSkipped text = false → '=' ∈ text →
      loadEnvLines (lines ++ [text]) (trimSpace (beforeEq text))
        = some (trimSpace (afterEq text))) ∧
    (∀ (env : Env) (text : Str), isSkipped text = false → '=' ∉ text →
      ∀ k, loadEnvStep env text k = env k) ∧
    (∀ env : Env, loadEnvStep env " A = b=c ".toList "A".toList = some "b=c".toList ∧
      ∀ k, k ≠ "A".toList → loadEnvStep env " A = b=c ".toList k = env k) ∧
    loadEnvLines [" A = b=c ".toList] "A".toList = some "b=c".toList ∧
    (∀ (lines : List Str) (k v : Str), loadEnvLines lines k = some v →
      '=' ∉ k ∧ k.head? ≠ some '#' ∧ isTrimmed k ∧ isTrimmed v) := by
  have hstep : ∀ (env : Env) (text : Str), isSkipped text = false → '=' ∈ text →
      loadEnvStep env text = env.set (trimSpace (beforeEq text)) (trimSpace (afterEq text)) := by
    intro env text hs he
    rw [loadEnvStep_eq]
    simp [lineEntry, hs, he]
  have hex : ∀ env : Env,
      loadEnvStep env " A = b=c ".toList = env.set "A".toList "b=c".toList :=
    fun env => loadEnvStep_some env _ _ _ (by decide)
  refine ⟨?_, ?_, ?_, ?_, ?_, ?_⟩
  · intro env text hs he
    rw [hstep env text hs he]
    exact ⟨Env.set_same _ _ _, fun k hk => Env.set_other _ _ _ k hk⟩
  · intro lines text hs he
    rw [loadEnvLines_concat, hstep _ text hs he]
    exact Env.set_same _ _ _
  · intro env text hs he k
    rw [loadEnvStep_eq]
    simp [lineEntry, hs, he]
  · intro env
    rw [hex env]
    exact ⟨Env.set_same _ _ _, fun k hk => Env.set_other _ _ _ k hk⟩
  · show loadEnvStep Env.empty " A = b=c ".toList "A".toList = some "b=c".toList
    rw [hex]
    exact Env.set_same _ _ _
  · intro lines k v h
    obtain ⟨_, l, _, _, hl, _⟩ := (loadEnvLines_eq_some_iff lines k v).mp h
    exact lineEntry_key_value l k v hl

/-- The claim C7 at concrete lines: after ` A = b=c ` the key `A` reads
`b=c`, also at the end of a file that had given `A` another value, and after
`A b`, which contains no `=`, nothing is stored. -/
theorem loadEnv_splits_on_first_eq_witness :
    loadEnvStep Env.empty " A = b=c ".toList "A".toList = some "b=c".toList ∧
    loadEnvLines (["A=1".toList] ++ [" A = b=c ".toList]) "A".toList = some "b=c".toList ∧
    loadEnvStep Env.empty "A b".toList "A b".toList = none :=
  ⟨(loadEnv_splits_on_first_eq.1 Env.empty " A = b=c ".toList (by decide) (by decide)).1,
    loadEnv_splits_on_first_eq.2.1 ["A=1".toList] " A = b=c ".toList (by decide) (by decide),
    loadEnv_splits_on_first_eq.2.2.1 Env.empty "A b".toList (by decide) (by decide) _⟩

/-! ## Facts about the fetcher and the color -/

theorem fetchUsage_request_error (http : Http) (decode : Body → Option UsageData)
    (orgID sessionKey : Str) (h : http.newRequestOk "GET".toList (usageUrl orgID) = false) :
    fetchUsage http decode orgID sessionKey = (none, "network_error".toList) := by
  unfold fetchUsage
  dsimp only
  rw [if_pos h]

theorem fetchUsage_send_error (http : Http) (decode : Body → Option UsageData)
    (orgID sessionKey : Str) (h : http.newRequestOk "GET".toList (usageUrl orgID) = true)
    (hs : http.send (usageRequest orgID sessionKey) = none) :
    fetchUsage http decode orgID sessionKey = (none, "network_error".toList) := by
  unfold fetchUsage
  dsimp only
  rw [if_neg (by rw [h]; decide), hs]

theorem fetchUsage_response (http : Http) (decode : Body → Option UsageData)
    (orgID sessionKey : Str) (resp : Response)
    (h : http.newRequestOk "GET".toList (usageUrl orgID) = true)
    (hs : http.send (usageRequest orgID sessionKey) = some resp) :
    fetchUsage http decode orgID sessionKey =
      if resp.statusCode = 401 ∨ resp.statusCode = 403 then (none, "auth_error".toList)
      else
        match decode resp.body with
        | none => (none, "unavailable".toList)
        | some data =>
          if data.fiveHour = none ∧ data.sevenDay = none then (none, "unavailable".toList)
          else (some data, "ok".toList) := by
  unfold fetchUsage
  dsimp only
  rw [if_neg (by rw [h]; decide)]
  simp only [hs]

theorem fetchUsage_cases (http : Http) (decode : Body → Option UsageData) (orgID sessionKey : Str) :
    (http.newRequestOk "GET".toList (usageUrl orgID) = false ∧
        fetchUsage http decode orgID sessionKey = (none, "network_error".toList)) ∨
    (http.newRequestOk "GET".toList (usageUrl orgID) = true ∧
        http.send (usageRequest orgID sessionKey) = none ∧
        fetchUsage http decode orgID sessionKey = (none, "network_error".toList)) ∨
    (∃ resp, http.newRequestOk "GET".toList (usageUrl orgID) = true ∧
        http.send (usageRequest orgID sessionKey) = some resp ∧
        (resp.statusCode = 401 ∨ resp.statusCode = 403) ∧
        fetchUsage http decode orgID sessionKey = (none, "auth_error".toList)) ∨
    (∃ resp, http.newRequestOk "GET".toList (usageUrl orgID) = true ∧
        http.send (usageRequest orgID sessionKey) = some resp ∧
        ¬(resp.statusCode = 401 ∨ resp.statusCode = 403) ∧ decode resp.body = none ∧
        fetchUsage http decode orgID sessionKey = (none, "unavailable".toList)) ∨
    (∃ resp d, http.newRequestOk "GET".toList (usageUrl orgID) = true ∧
        http.send (usageRequest orgID sessionKey) = some resp ∧
        ¬(resp.statusCode = 401 ∨ resp.statusCode = 403) ∧ decode resp.body = some d ∧
        (d.fiveHour = none ∧ d.sevenDay = none) ∧
        fetchUsage http decode orgID sessionKey = (none, "unavailable".toList)) ∨
    (∃ resp d, http.newRequestOk "GET".toList (usageUrl orgID) = true ∧
        http.send (usageRequest orgID sessionKey) = some resp ∧
        ¬(resp.statusCode = 401 ∨ resp.statusCode = 403) ∧ decode resp.body = some d ∧
        ¬(d.fiveHour = none ∧ d.sevenDay = none) ∧
        fetchUsage http decode orgID sessionKey = (some d, "ok".toList)) := by
  cases hn : http.newRequestOk "GET".toList (usageUrl orgID) with
  | false => left; exact ⟨rfl, fetchUsage_request_error _ _ _ _ hn⟩
  | true =>
    right
    cases hs : http.send (usageRequest orgID sessionKey) with
    | none => left; exact ⟨rfl, rfl, fetchUsage_send_error _ _ _ _ hn hs⟩
    | some resp =>
      right
      rw [fetchUsage_response _ _ _ _ resp hn hs]
      by_cases hst : resp.statusCode = 401 ∨ resp.statusCode = 403
      · left
        exact ⟨resp, rfl, rfl, hst, by rw [if_pos hst]⟩
      · right
        rw [if_neg hst]
        cases hd : decode resp.body with
        | none =>
          left
          exact ⟨resp, rfl, rfl, hst, hd, rfl⟩
        | some d =>
          right
          by_cases hp : d.fiveHour = none ∧ d.sevenDay = none
          · left
            exact ⟨resp, d, rfl, rfl, hst, hd, hp, by simp only [hp, and_self, if_true]⟩
          · right
            exact ⟨resp, d, rfl, rfl, hst, hd, hp, by simp only [hp, if_false]⟩

theorem status_ne : "network_error".toList ≠ "ok".toList ∧ "auth_error".toList ≠ "ok".toList ∧
    "unavailable".toList ≠ "ok".toList := by decide

theorem fetchUsage_ok_iff (http : Http) (decode : Body → Option UsageData)
    (orgID sessionKey : Str) :
    (fetchUsage http decode orgID sessionKey).2 = "ok".toList ↔
      http.newRequestOk "GET".toList (usageUrl orgID) = true ∧
      ∃ resp d, http.send (usageRequest orgID sessionKey) = some resp ∧
        resp.statusCode ≠ 401 ∧ resp.statusCode ≠ 403 ∧ decode resp.body = some d ∧
        (d.fiveHour ≠ none ∨ d.sevenDay ≠ none) := by
  constructor
  · intro hok
    rcases fetchUsage_cases http decode orgID sessionKey with
      ⟨_, h⟩ | ⟨_, _, h⟩ | ⟨_, _, _, _, h⟩ | ⟨_, _, _, _, _, h⟩ | ⟨_, _, _, _, _, _, _, h⟩ |
      ⟨resp, d, hn, hs, hst, hd, hp, h⟩
    · rw [h] at hok; exact absurd hok status_ne.1
    · rw [h] at hok; exact absurd hok status_ne.1
    · rw [h] at hok; exact absurd hok status_ne.2.1
    · rw [h] at hok; exact absurd hok status_ne.2.2
    · rw [h] at hok; exact absurd hok status_ne.2.2
    · refine ⟨hn, resp, d, hs, fun h1 => hst (Or.inl h1), fun h3 => hst (Or.inr h3), hd, ?_⟩
      by_contra hcon
      push_neg at hcon
      exact hp hcon
  · rintro ⟨hn, resp, d, hs, h1, h3, hd, hp⟩
    rw [fetchUsage_response http decode orgID sessionKey resp hn hs]
    have hst : ¬(resp.statusCode = 401 ∨ resp.statusCode = 403) := by
      rintro (h | h)
      · exact h1 h
      · exact h3 h
    have hp' : ¬(d.fiveHour = none ∧ d.sevenDay = none) := by
      rintro ⟨ha, hb⟩
      rcases hp with h | h
      · exact h ha
      · exact h hb
    simp [hst, hd, hp']

theorem fetchUsage_data_iff (http : Http) (decode : Body → Option UsageData)
    (orgID sessionKey : Str) :
    ((fetchUsage http decode orgID sessionKey).1 ≠ none ↔
      (fetchUsage http decode orgID sessionKey).2 = "ok".toList) ∧
    (fetchUsage http decode orgID sessionKey).2 ∈
      ["network_error".toList, "auth_error".toList, "unavailable".toList, "ok".toList] := by
  rcases fetchUsage_cases http decode orgID sessionKey with
      ⟨_, h⟩ | ⟨_, _, h⟩ | ⟨_, _, _, _, h⟩ | ⟨_, _, _, _, _, h⟩ | ⟨_, _, _, _, _, _, _, h⟩ |
      ⟨resp, d, hn, hs, hst, hd, hp, h⟩ <;> rw [h] <;> refine ⟨?_, by simp⟩ <;> simp

theorem report_fetchUsage (http : Http) (decode : Body → Option UsageData)
    (orgID sessionKey : Str) (untilNs : Str → Option ℤ) (envFile : Str) :
    report untilNs envFile (fetchUsage http decode orgID sessionKey).1
      (fetchUsage http decode orgID sessionKey).2 ≠ Run.nilDereference := by
  rcases fetchUsage_cases http decode orgID sessionKey with
      ⟨_, h⟩ | ⟨_, _, h⟩ | ⟨_, _, _, _, h⟩ | ⟨_, _, _, _, _, h⟩ | ⟨_, _, _, _, _, _, _, h⟩ |
      ⟨resp, d, hn, hs, hst, hd, hp, h⟩ <;> rw [h] <;> simp [report, printError]

/-! ## The branches of main -/

theorem mainRun_of_no_home (w : World) (h : w.homeDir = none) :
    mainRun w = ([], printError "C: ERR | color=red".toList
      ["Cannot determine home directory".toList]) := by
  unfold mainRun
  rw [h]

theorem mainRun_of_load_error (w : World) (home : Str) (hhome : w.homeDir = some home)
    (herr : (loadEnv (w.readFile (envFilePath home))).2 = true) :
    mainRun w = ([], printError "C: CFG | color=red".toList
      ["Cannot read config file".toList,
       "Expected: ".toList ++ envFilePath home,
       "---".toList,
       "Create config dir | bash=mkdir param1=-p param2=".toList
          ++ configDirPath home ++ " terminal=false".toList,
       "Open config dir | bash=open param1=".toList
          ++ configDirPath home ++ " terminal=false".toList]) := by
  unfold mainRun
  rw [hhome]
  dsimp only
  rw [if_pos herr]

theorem mainRun_of_missing_key (w : World) (home : Str) (hhome : w.homeDir = some home)
    (hload : (loadEnv (w.readFile (envFilePath home))).2 = false)
    (hkeys : envGet (loadEnv (w.readFile (envFilePath home))).1 "CLAUDE_ORG_ID".toList = [] ∨
      envGet (loadEnv (w.readFile (envFilePath home))).1 "CLAUDE_SESSION_KEY".toList = []) :
    mainRun w = ([], printError "C: CFG | color=red".toList
      ["Missing CLAUDE_ORG_ID or CLAUDE_SESSION_KEY".toList,
       "Edit config | bash=open param1=".toList ++ envFilePath home
          ++ " terminal=false".toList]) := by
  unfold mainRun
  rw [hhome]
  dsimp only
  rw [if_neg (by rw [hload]; decide), if_pos hkeys]

theorem mainRun_of_fetch (w : World) (home : Str) (hhome : w.homeDir = some home)
    (hload : (loadEnv (w.readFile (envFilePath home))).2 = false)
    (horg : envGet (loadEnv (w.readFile (envFilePath home))).1 "CLAUDE_ORG_ID".toList ≠ [])
    (hkey : envGet (loadEnv (w.readFile (envFilePath home))).1 "CLAUDE_SESSION_KEY".toList ≠ []) :
    mainRun w =
      ([(envGet (loadEnv (w.readFile (envFilePath home))).1 "CLAUDE_ORG_ID".toList,
         envGet (loadEnv (w.readFile (envFilePath home))).1 "CLAUDE_SESSION_KEY".toList)],
       report w.untilNs (envFilePath home)
        (fetchUsage w.http w.decode
          (envGet (loadEnv (w.readFile (envFilePath home))).1 "CLAUDE_ORG_ID".toList)
          (envGet (loadEnv (w.readFile (envFilePath home))).1 "CLAUDE_SESSION_KEY".toList)).1
        (fetchUsage w.http w.decode
          (envGet (loadEnv (w.readFile (envFilePath home))).1 "CLAUDE_ORG_ID".toList)
          (envGet (loadEnv (w.readFile (envFilePath home))).1 "CLAUDE_SESSION_KEY".toList)).2) := by
  unfold mainRun
  rw [hhome]
  dsimp only
  rw [if_neg (by rw [hload]; decide), if_neg (by
    rintro (h | h)
    · exact horg h
    · exact hkey h)]

theorem main_ne_nilDereference (w : World) : main w ≠ Run.nilDereference := by
  unfold main
  cases hh : w.homeDir with
  | none =>
    rw [mainRun_of_no_home w hh]
    simp [printError]
  | some home =>
    cases hl : (loadEnv (w.readFile (envFilePath home))).2 with
    | true =>
      rw [mainRun_of_load_error w home hh hl]
      simp [printError]
    | false =>
      by_cases hk : envGet (loadEnv (w.readFile (envFilePath home))).1 "CLAUDE_ORG_ID".toList = [] ∨
          envGet (loadEnv (w.readFile (envFilePath home))).1 "CLAUDE_SESSION_KEY".toList = []
      · rw [mainRun_of_missing_key w home hh hl hk]
        simp [printError]
      · rw [mainRun_of_fetch w home hh hl (fun h => hk (Or.inl h)) (fun h => hk (Or.inr h))]
        exact report_fetchUsage _ _ _ _ _ _

theorem getColor_red (pct : ℚ) : getColor pct = "red".toList ↔ 95 ≤ pct := by
  unfold getColor
  by_cases h : 95 ≤ pct
  · simp [h]
  · by_cases h2 : 80 ≤ pct
    · simp [h, h2]
    · simp [h, h2]

theorem getColor_orange (pct : ℚ) : getColor pct = "orange".toList ↔ 80 ≤ pct ∧ pct < 95 := by
  unfold getColor
  by_cases h : 95 ≤ pct
  · simp [h]
  · by_cases h2 : 80 ≤ pct
    · simp [h, h2]; linarith
    · simp [h, h2]

theorem getColor_none (pct : ℚ) : getColor pct = [] ↔ pct < 80 := by
  unfold getColor
  by_cases h : 95 ≤ pct
  · simp [h]; linarith
  · by_cases h2 : 80 ≤ pct
    · simp [h, h2]
    · simp [h, h2]; linarith

theorem severity_getColor (pct : ℚ) :
    severity (getColor pct) = if 95 ≤ pct then 2 else if 80 ≤ pct then 1 else 0 := by
  unfold getColor
  by_cases h : 95 ≤ pct
  · simp only [h, if_true]; decide
  · by_cases h2 : 80 ≤ pct
    · simp only [h, h2, if_true, if_false]; decide
    · simp only [h, h2, if_false]; decide

theorem getColor_monotone (p q : ℚ) (h : p ≤ q) :
    severity (getColor p) ≤ severity (getColor q) := by
  rw [severity_getColor, severity_getColor]
  by_cases h1 : 95 ≤ p
  · have : 95 ≤ q := le_trans h1 h
    simp [h1, this]
  · by_cases h2 : 80 ≤ p
    · have : 80 ≤ q := le_trans h2 h
      by_cases h3 : 95 ≤ q <;> simp [h1, h2, h3, this]
    · by_cases h3 : 95 ≤ q
      · simp [h1, h2, h3]
      · by_cases h4 : 80 ≤ q <;> simp [h1, h2, h3, h4]

/-! ## The claims about the fetcher -/

/-- C1, as stated, fails: a timeout that strikes while the body is read is a
transport error of the round trip, and `fetchUsage` answers it with
`unavailable`, not with `network_error`. -/
theorem fetchUsage_timeout_in_body_is_unavailable :
    transportError httpTimeoutInBody "org".toList "key".toList = true ∧
    fetchUsage httpTimeoutInBody decodeExample "org".toList "key".toList
      = (none, "unavailable".toList) ∧
    (fetchUsage httpTimeoutInBody decodeExample "org".toList "key".toList).2
      ≠ "network_error".toList := by
  decide

/-- C1, amended: `fetchUsage` classifies a round trip in this order: a
request that cannot be built, or for which `client.Do` returns an error, gives
`network_error`; a response with status 401 or 403 gives `auth_error`
whatever its body; otherwise a body that does not decode gives `unavailable`,
also when the reason is an error in reading it; otherwise a snapshot with
both periods absent gives `unavailable`; otherwise the result is `ok` with
the decoded snapshot unchanged. The status is `ok` exactly when the request
was built, `client.Do` returned a response, the status code is neither 401
nor 403, the body decodes and a period is present. -/
theorem fetchUsage_classifies (http : Http) (decode : Body → Option UsageData)
    (orgID sessionKey : Str) :
    (http.newRequestOk "GET".toList (usageUrl orgID) = false →
      fetchUsage http decode orgID sessionKey = (none, "network_error".toList)) ∧
    (http.newRequestOk "GET".toList (usageUrl orgID) = true →
      http.send (usageRequest orgID sessionKey) = none →
      fetchUsage http decode orgID sessionKey = (none, "network_error".toList)) ∧
    (∀ resp, http.newRequestOk "GET".toList (usageUrl orgID) = true →
      http.send (usageRequest orgID sessionKey) = some resp →
      (resp.statusCode = 401 ∨ resp.statusCode = 403) →
      fetchUsage http decode orgID sessionKey = (none, "auth_error".toList)) ∧
    (∀ resp, http.newRequestOk "GET".toList (usageUrl orgID) = true →
      http.send (usageRequest orgID sessionKey) = some resp →
      resp.statusCode ≠ 401 → resp.statusCode ≠ 403 → decode resp.body = none →
      fetchUsage http decode orgID sessionKey = (none, "unavailable".toList)) ∧
    (∀ resp d, http.newRequestOk "GET".toList (usageUrl orgID) = true →
      http.send (usageRequest orgID sessionKey) = some resp →
      resp.statusCode ≠ 401 → resp.statusCode ≠ 403 → decode resp.body = some d →
      d.fiveHour = none → d.sevenDay = none →
      fetchUsage http decode orgID sessionKey = (none, "unavailable".toList)) ∧
    (∀ resp d, http.newRequestOk "GET".toList (usageUrl orgID) = true →
      http.send (usageRequest orgID sessionKey) = some resp →
      resp.statusCode ≠ 401 → resp.statusCode ≠ 403 → decode resp.body = some d →
      (d.fiveHour ≠ none ∨ d.sevenDay ≠ none) →
      fetchUsage http decode orgID sessionKey = (some d, "ok".toList)) ∧
    ((fetchUsage http decode orgID sessionKey).2 = "ok".toList ↔
      http.newRequestOk "GET".toList (usageUrl orgID) = true ∧
      ∃ resp d, http.send (usageRequest orgID sessionKey) = some resp ∧
        resp.statusCode ≠ 401 ∧ resp.statusCode ≠ 403 ∧ decode resp.body = some d ∧
        (d.fiveHour ≠ none ∨ d.sevenDay ≠ none)) ∧
    (∀ resp, http.newRequestOk "GET".toList (usageUrl orgID) = true →
      http.send (usageRequest orgID sessionKey) = some resp →
      resp.statusCode ≠ 401 → resp.statusCode ≠ 403 → resp.body.readError = true →
      decode resp.body = none →
      transportError http orgID sessionKey = true ∧
      fetchUsage http decode orgID sessionKey = (none, "unavailable".toList)) := by
  refine ⟨fetchUsage_request_error _ _ _ _, fetchUsage_send_error _ _ _ _, ?_, ?_, ?_, ?_,
    fetchUsage_ok_iff _ _ _ _, ?_⟩
  · intro resp hn hs hst
    rw [fetchUsage_response _ _ _ _ resp hn hs, if_pos hst]
  · intro resp hn hs h1 h3 hd
    have hst : ¬(resp.statusCode = 401 ∨ resp.statusCode = 403) := fun h => h.elim h1 h3
    rw [fetchUsage_response _ _ _ _ resp hn hs, if_neg hst, hd]
  · intro resp d hn hs h1 h3 hd h5 h7
    have hst : ¬(resp.statusCode = 401 ∨ resp.statusCode = 403) := fun h => h.elim h1 h3
    rw [fetchUsage_response _ _ _ _ resp hn hs, if_neg hst, hd]
    exact if_pos ⟨h5, h7⟩
  · intro resp d hn hs h1 h3 hd hp
    have hst : ¬(resp.statusCode = 401 ∨ resp.statusCode = 403) := fun h => h.elim h1 h3
    rw [fetchUsage_response _ _ _ _ resp hn hs, if_neg hst, hd]
    exact if_neg (fun h => hp.elim (fun h5 => h5 h.1) (fun h7 => h7 h.2))
  · intro resp hn hs h1 h3 hr hd
    have hst : ¬(resp.statusCode = 401 ∨ resp.statusCode = 403) := fun h => h.elim h1 h3
    constructor
    · unfold transportError
      rw [if_neg (by rw [hn]; decide)]
      simp only [hs]
      exact hr
    · rw [fetchUsage_response _ _ _ _ resp hn hs, if_neg hst, hd]

/-- The amended claim C1 at concrete round trips: a 403 response with a
well-formed body is an `auth_error`, a 200 response with two null periods is
`unavailable`, a 200 response with utilizations 42 and 96 is `ok` with that
snapshot, and a 200 response whose body is cut off by the timeout is
`unavailable`. -/
theorem fetchUsage_classifies_witness :
    fetchUsage (httpAnswering ⟨403, ⟨body4296, false⟩⟩) decodeExample "org".toList "key".toList
      = (none, "auth_error".toList) ∧
    fetchUsage (httpAnswering ⟨200, ⟨bodyNulls, false⟩⟩) decodeExample "org".toList "key".toList
      = (none, "unavailable".toList) ∧
    fetchUsage (httpAnswering ⟨200, ⟨body4296, false⟩⟩) decodeExample "org".toList "key".toList
      = (some ⟨some ⟨F64.ofRat 42, "t1".toList⟩, some ⟨F64.ofRat 96, "t2".toList⟩⟩,
          "ok".toList) ∧
    fetchUsage httpTimeoutInBody decodeExample "org".toList "key".toList
      = (none, "unavailable".toList) :=
  ⟨(fetchUsage_classifies _ _ _ _).2.2.1 ⟨403, ⟨body4296, false⟩⟩ rfl rfl (Or.inr rfl),
   (fetchUsage_classifies _ _ _ _).2.2.2.2.1 ⟨200, ⟨bodyNulls, false⟩⟩ ⟨none, none⟩ rfl rfl
     (by decide) (by decide) (by decide) rfl rfl,
   (fetchUsage_classifies _ _ _ _).2.2.2.2.2.1 ⟨200, ⟨body4296, false⟩⟩ _ rfl rfl
     (by decide) (by decide) (by decide) (Or.inl (by decide)),
   ((fetchUsage_classifies _ _ _ _).2.2.2.2.2.2.2 ⟨200, ⟨[], true⟩⟩ rfl rfl
     (by decide) (by decide) rfl (by decide)).2⟩

/-- C10: the snapshot `fetchUsage` returns is non-nil exactly when the
status is `ok`, the status is one of the four named ones, and `main`, which
returns in the three failure branches before it reads the snapshot, never
reaches the nil dereference, although handing it a nil snapshot with status
`ok` would. -/
theorem fetchUsage_snapshot_iff_ok :
    (∀ (http : Http) (decode : Body → Option UsageData) (orgID sessionKey : Str),
      ((fetchUsage http decode orgID sessionKey).1 ≠ none ↔
        (fetchUsage http decode orgID sessionKey).2 = "ok".toList) ∧
      (fetchUsage http decode orgID sessionKey).2 ∈
        ["network_error".toList, "auth_error".toList, "unavailable".toList, "ok".toList]) ∧
    (∀ (http : Http) (decode : Body → Option UsageData) (orgID sessionKey : Str)
      (untilNs : Str → Option ℤ) (envFile : Str),
      report untilNs envFile (fetchUsage http decode orgID sessionKey).1
        (fetchUsage http decode orgID sessionKey).2 ≠ Run.nilDereference) ∧
    (∀ w : World, main w ≠ Run.nilDereference) ∧
    (∀ (untilNs : Str → Option ℤ) (envFile : Str),
      report untilNs envFile none "ok".toList = Run.nilDereference) :=
  ⟨fetchUsage_data_iff, report_fetchUsage, main_ne_nilDereference, fun _ _ => rfl⟩

/-! ## The claims about the color -/

/-- C3, as stated, fails: the `float64` nearest to 94.9 is at least 80, so
`getColor` gives it `orange`, not the empty color. -/
theorem getColor_94_9_is_orange :
    getColor (roundF64 (949 / 10)) = "orange".toList ∧ getColor (roundF64 (949 / 10)) ≠ [] := by
  decide!

/-- C3, amended: `getColor pct` is `red` exactly when `pct ≥ 95`, `orange`
exactly when `80 ≤ pct < 95` and empty exactly when `pct < 80`; 94.9 gives
`orange`, 79.9 gives no color, 95 gives `red`, 80 gives `orange`; and a larger
percentage never gives a less severe color. -/
theorem getColor_thresholds :
    (∀ pct : ℚ, (getColor pct = "red".toList ↔ 95 ≤ pct) ∧
      (getColor pct = "orange".toList ↔ 80 ≤ pct ∧ pct < 95) ∧
      (getColor pct = [] ↔ pct < 80)) ∧
    getColor (roundF64 (949 / 10)) = "orange".toList ∧
    getColor (roundF64 (799 / 10)) = [] ∧
    getColor 95 = "red".toList ∧ getColor 80 = "orange".toList ∧
    (∀ p q : ℚ, p ≤ q → severity (getColor p) ≤ severity (getColor q)) := by
  refine ⟨fun pct => ⟨getColor_red pct, getColor_orange pct, getColor_none pct⟩, ?_, ?_, ?_, ?_,
    getColor_monotone⟩ <;> decide!

/-- The amended claim C3 at concrete percentages: from 79.9 to 80 the color
does not get less severe. -/
theorem getColor_thresholds_witness :
    severity (getColor (roundF64 (799 / 10))) ≤ severity (getColor 80) :=
  getColor_thresholds.2.2.2.2.2 _ _ (by decide!)

/-! ## Facts about searching and splitting text -/

theorem isPrefixOf_iff (p s : Str) : p.isPrefixOf s = true ↔ p <+: s := by
  exact List.isPrefixOf_iff_prefix

theorem containsStr_iff (s p : Str) : containsStr s p = true ↔ p <:+: s := by
  induction s with
  | nil =>
    cases p with
    | nil => simp [containsStr]
    | cons a t => simp [containsStr]
  | cons c cs ih =>
    unfold containsStr
    rw [Bool.or_eq_true, ih, List.infix_cons_iff, isPrefixOf_iff]

theorem containsStr_false_iff (s p : Str) : containsStr s p = false ↔ ¬ p <:+: s := by
  rw [← containsStr_iff]
  simp

/-- A string without the separator that occurs in a text around a separator
occurs before it or after it. -/
theorem infix_of_infix_append_cons (p a b : Str) (c : Char) (hc : c ∉ p)
    (h : p <:+: a ++ c :: b) : p <:+: a ∨ p <:+: b := by
  induction a with
  | nil =>
    rw [List.nil_append, List.infix_cons_iff] at h
    rcases h with h | h
    · cases p with
      | nil => left; exact List.nil_infix
      | cons x t =>
        exact absurd (List.cons_prefix_cons.mp h).1 (fun hx => hc (by simp [hx]))
    · right; exact h
  | cons x a ih =>
    rw [List.cons_append, List.infix_cons_iff] at h
    rcases h with h | h
    · -- p is a prefix of x :: a ++ c :: b and does not contain c
      left
      obtain ⟨t, ht⟩ := h
      -- p ++ t = x :: (a ++ c :: b); p has no c so p is a prefix of x :: a
      have hpre : p <+: x :: a := by
        have h1 : p ++ t = (x :: a) ++ c :: b := by simpa using ht
        rcases List.append_eq_append_iff.mp h1 with ⟨a', ha', _⟩ | ⟨c', hc', ht'⟩
        · exact ⟨a', ha'.symm⟩
        · cases c' with
          | nil => exact ⟨[], by simpa using hc'⟩
          | cons y c'' =>
            have hy : y = c := by
              have := ht'
              simp at this
              exact this.1.symm
            exact absurd (by rw [hc', ← hy]; simp) hc
      exact hpre.isInfix
    · rcases ih h with h' | h'
      · left; exact List.infix_cons h'
      · right; exact h'

theorem splitOnChar_ne_nil (sep : Char) (s : Str) : splitOnChar sep s ≠ [] := by
  induction s with
  | nil => simp [splitOnChar]
  | cons c cs ih =>
    unfold splitOnChar
    split
    · simp
    · split <;> simp

theorem splitOnChar_cons_ne (sep c : Char) (cs : Str) (h : c ≠ sep) :
    ∃ hd tl, splitOnChar sep cs = hd :: tl ∧ splitOnChar sep (c :: cs) = (c :: hd) :: tl := by
  cases hs : splitOnChar sep cs with
  | nil => exact absurd hs (splitOnChar_ne_nil sep cs)
  | cons hd tl =>
    refine ⟨hd, tl, rfl, ?_⟩
    rw [splitOnChar, if_neg h, hs]

theorem splitOnChar_append_sep (sep : Char) (a b : Str) :
    splitOnChar sep (a ++ sep :: b) = splitOnChar sep a ++ splitOnChar sep b := by
  induction a with
  | nil => simp [splitOnChar]
  | cons c a ih =>
    by_cases h : c = sep
    · subst h
      show splitOnChar c (c :: (a ++ c :: b)) = splitOnChar c (c :: a) ++ splitOnChar c b
      rw [splitOnChar, if_pos rfl, ih]
      conv_rhs => rw [splitOnChar, if_pos rfl]
      rfl
    · obtain ⟨hd, tl, h1, h2⟩ := splitOnChar_cons_ne sep c a h
      obtain ⟨hd', tl', h1', h2'⟩ := splitOnChar_cons_ne sep c (a ++ sep :: b) h
      rw [List.cons_append, h2', h2]
      rw [ih, h1] at h1'
      simp only [List.cons_append, List.cons.injEq] at h1'
      rw [← h1'.1, ← h1'.2]
      rfl

theorem splitOnChar_prepend (sep : Char) (f x : Str) (hf : sep ∉ f) :
    ∃ hd tl, splitOnChar sep x = hd :: tl ∧ splitOnChar sep (f ++ x) = (f ++ hd) :: tl := by
  induction f with
  | nil =>
    cases hs : splitOnChar sep x with
    | nil => exact absurd hs (splitOnChar_ne_nil sep x)
    | cons hd tl => exact ⟨hd, tl, rfl, by simpa using hs⟩
  | cons c f ih =>
    have hc : c ≠ sep := fun h => hf (by simp [h])
    obtain ⟨hd, tl, h1, h2⟩ := ih (fun h => hf (by simp [h]))
    obtain ⟨hd', tl', h1', h2'⟩ := splitOnChar_cons_ne sep c (f ++ x) hc
    rw [h2] at h1'
    simp only [List.cons.injEq] at h1'
    refine ⟨hd, tl, h1, ?_⟩
    rw [List.cons_append, h2', ← h1'.1, ← h1'.2]
    rfl

theorem head_splitOnChar_prefix (sep : Char) (s hd : Str) (tl : List Str)
    (h : splitOnChar sep s = hd :: tl) : hd <+: s := by
  induction s generalizing hd tl with
  | nil =>
    simp [splitOnChar] at h
    rw [← h.1]
  | cons d ds ih =>
    by_cases hd' : d = sep
    · rw [splitOnChar, if_pos hd'] at h
      simp only [List.cons.injEq] at h
      rw [← h.1]
      exact List.nil_prefix
    · obtain ⟨e, tl', g1, g2⟩ := splitOnChar_cons_ne sep d ds hd'
      rw [g2] at h
      simp only [List.cons.injEq] at h
      rw [← h.1]
      exact List.cons_prefix_cons.mpr ⟨rfl, ih e tl' g1⟩

theorem infix_of_mem_splitOnChar (sep : Char) (s l : Str) (h : l ∈ splitOnChar sep s) :
    l <:+: s := by
  induction s generalizing l with
  | nil =>
    simp [splitOnChar] at h
    subst h
    exact List.nil_infix
  | cons c cs ih =>
    by_cases hc : c = sep
    · rw [splitOnChar, if_pos hc] at h
      rcases List.mem_cons.mp h with h | h
      · subst h; exact List.nil_infix
      · exact List.infix_cons (ih l h)
    · obtain ⟨hd, tl, h1, h2⟩ := splitOnChar_cons_ne sep c cs hc
      rw [h2] at h
      rcases List.mem_cons.mp h with h | h
      · subst h
        exact (List.cons_prefix_cons.mpr ⟨rfl, head_splitOnChar_prefix sep cs hd tl h1⟩).isInfix
      · exact List.infix_cons (ih l (by rw [h1]; exact List.mem_cons_of_mem _ h))

theorem infix_joinSep (c : Char) (p : Str) (parts : List Str) (hc : c ∉ p) (hne : p ≠ [])
    (h : p <:+: joinSep [c] parts) : ∃ e ∈ parts, p <:+: e := by
  induction parts with
  | nil =>
    simp only [joinSep] at h
    exact absurd (List.eq_nil_of_infix_nil h) hne
  | cons x rest ih =>
    cases rest with
    | nil => exact ⟨x, by simp, by simpa [joinSep] using h⟩
    | cons y rest' =>
      have h' : p <:+: x ++ c :: joinSep [c] (y :: rest') := by
        simpa [joinSep] using h
      rcases infix_of_infix_append_cons p _ _ c hc h' with h1 | h1
      · exact ⟨x, by simp, h1⟩
      · obtain ⟨e, he, hpe⟩ := ih h1
        exact ⟨e, List.mem_cons_of_mem _ he, hpe⟩

theorem mem_cleanStep (rooted : Bool) (kept : List Str) (e x : Str)
    (h : x ∈ cleanStep rooted kept e) : x ∈ kept ∨ x = e := by
  unfold cleanStep at h
  split at h
  · left; exact h
  · split at h
    · split at h
      · split at h
        · split at h
          · left; exact h
          · rcases List.mem_cons.mp h with h | h
            · right; exact h
            · left; exact h
        · left; exact List.mem_cons_of_mem _ h
      · split at h
        · left; exact h
        · right; simpa using h
    · rcases List.mem_cons.mp h with h | h
      · right; exact h
      · left; exact h

theorem mem_foldl_cleanStep (rooted : Bool) (elems : List Str) (kept : List Str) (x : Str)
    (h : x ∈ elems.foldl (cleanStep rooted) kept) : x ∈ kept ∨ x ∈ elems := by
  induction elems generalizing kept with
  | nil => left; simpa using h
  | cons e rest ih =>
    rw [List.foldl_cons] at h
    rcases ih _ h with h | h
    · rcases mem_cleanStep rooted kept e x h with h | h
      · left; exact h
      · right; simp [h]
    · right; exact List.mem_cons_of_mem _ h

theorem infix_clean (p path : Str) (hc : '/' ∉ p) (hne : p ≠ [])
    (hdot : ¬ p <:+: ['.']) (h : p <:+: clean path) : p <:+: path := by
  have key : ∀ kept : List Str, p <:+: joinSep ['/'] kept →
      (∀ e ∈ kept, e ∈ splitOnChar '/' path) → p <:+: path := by
    intro kept hk hmem
    obtain ⟨e, he, hpe⟩ := infix_joinSep '/' p _ hc hne hk
    exact List.IsInfix.trans hpe (infix_of_mem_splitOnChar '/' path e (hmem e he))
  have hkept : ∀ r : Bool, ∀ e ∈ (List.foldl (cleanStep r) [] (splitOnChar '/' path)).reverse,
      e ∈ splitOnChar '/' path := by
    intro r e he
    rcases mem_foldl_cleanStep _ _ _ _ (List.mem_reverse.mp he) with h3 | h3
    · simp at h3
    · exact h3
  unfold clean at h
  dsimp only at h
  split_ifs at h with h1 h2 h3 h4
  · exact absurd h hdot
  · exact absurd h hdot
  · rcases infix_of_infix_append_cons p [] _ '/' hc (by simpa using h) with h' | h'
    · exact absurd (List.eq_nil_of_infix_nil h') hne
    · exact key _ h' (hkept _)
  · exact absurd h hdot
  · exact key _ (by simpa using h) (hkept _)

theorem infix_filepathJoin (p : Str) (elem : List Str) (hc : '/' ∉ p) (hne : p ≠ [])
    (hdot : ¬ p <:+: ['.']) (h : p <:+: filepathJoin elem) : ∃ e ∈ elem, p <:+: e := by
  unfold filepathJoin at h
  split at h
  · exact absurd (List.eq_nil_of_infix_nil h) hne
  · rename_i rest hrest
    have h1 := infix_clean p _ hc hne hdot h
    obtain ⟨e, he, hpe⟩ := infix_joinSep '/' p _ hc hne h1
    exact ⟨e, (List.dropWhile_sublist _).subset he, hpe⟩

/-! ## Facts about the printed text -/

theorem splitOnChar_printed (items : List Str) :
    splitOnChar '\n' (printed items) = items.flatMap (splitOnChar '\n') ++ [[]] := by
  induction items with
  | nil => rfl
  | cons x rest ih =>
    rw [printed, splitOnChar_append_sep, ih]
    simp [List.flatMap_cons]

theorem printed_ne_nil (x : Str) (rest : List Str) : printed (x :: rest) ≠ [] := by
  simp [printed]

theorem getLast?_printed (x : Str) (rest : List Str) :
    (printed (x :: rest)).getLast? = some '\n' := by
  induction rest generalizing x with
  | nil => simp [printed]
  | cons y rest ih =>
    rw [printed, List.getLast?_append]
    have h := ih y
    cases hp : printed (y :: rest) with
    | nil => exact absurd hp (printed_ne_nil y rest)
    | cons c t =>
      rw [hp] at h
      rw [List.getLast?_cons_cons, h]
      rfl

theorem textLines_printed (items : List Str) :
    textLines (printed items) = items.flatMap (splitOnChar '\n') := by
  cases items with
  | nil => rfl
  | cons x rest =>
    unfold textLines
    rw [getLast?_printed, splitOnChar_printed]
    simp

theorem filter_lines_of_not_infix (p s : Str) (h : ¬ p <:+: s) :
    (splitOnChar '\n' s).filter (fun l => containsStr l p) = [] := by
  rw [List.filter_eq_nil_iff]
  intro l hl hcon
  exact h (List.IsInfix.trans ((containsStr_iff l p).mp hcon) (infix_of_mem_splitOnChar _ _ _ hl))

theorem filter_lines_of_head (p f x : Str) (hf : '\n' ∉ f) (hp : p <:+: f) (hx : ¬ p <:+: x) :
    ((splitOnChar '\n' (f ++ x)).filter (fun l => containsStr l p)).length = 1 := by
  obtain ⟨hd, tl, h1, h2⟩ := splitOnChar_prepend '\n' f x hf
  rw [h2]
  have hhd : containsStr (f ++ hd) p = true :=
    (containsStr_iff _ _).mpr (List.IsInfix.trans hp (List.prefix_append f hd).isInfix)
  have htl : tl.filter (fun l => containsStr l p) = [] := by
    rw [List.filter_eq_nil_iff]
    intro l hl hcon
    exact hx (List.IsInfix.trans ((containsStr_iff l p).mp hcon)
      (infix_of_mem_splitOnChar '\n' x l (by rw [h1]; exact List.mem_cons_of_mem _ hl)))
  rw [List.filter_cons_of_pos (by simpa using hhd), htl]
  rfl

theorem bash_not_in_path (home : Str) (rest : List Str)
    (hb : containsStr home "bash=".toList = false)
    (hrest : ∀ e ∈ rest, containsStr e "bash=".toList = false) :
    ¬ "bash=".toList <:+: filepathJoin (home :: rest) := by
  intro h
  obtain ⟨e, he, hpe⟩ := infix_filepathJoin "bash=".toList _ (by decide) (by decide)
    (by rw [← containsStr_iff]; decide) h
  rcases List.mem_cons.mp he with h1 | h1
  · rw [h1] at hpe
    exact (containsStr_false_iff _ _).mp hb hpe
  · exact (containsStr_false_iff _ _).mp (hrest e h1) hpe

theorem main_of_load_error (w : World) (home : Str) (hhome : w.homeDir = some home)
    (herr : (loadEnv (w.readFile (envFilePath home))).2 = true) :
    main w = Run.exit
      ["C: CFG | color=red".toList, "---".toList, "Cannot read config file".toList,
       "Expected: ".toList ++ envFilePath home,
       "---".toList,
       "Create config dir | bash=mkdir param1=-p param2=".toList
          ++ configDirPath home ++ " terminal=false".toList,
       "Open config dir | bash=open param1=".toList
          ++ configDirPath home ++ " terminal=false".toList] := by
  unfold main
  rw [mainRun_of_load_error w home hhome herr]
  rfl

theorem splitOnChar_of_not_mem (sep : Char) (s : Str) (h : sep ∉ s) :
    splitOnChar sep s = [s] := by
  obtain ⟨hd, tl, h1, h2⟩ := splitOnChar_prepend sep s [] h
  simp only [splitOnChar, List.cons.injEq] at h1
  rw [List.append_nil] at h2
  rw [h2, ← h1.1, ← h1.2, List.append_nil]

theorem digitChar_mem (d : Nat) : digitChar d ∈ "0123456789".toList := by
  unfold digitChar
  have h : d % 10 < 10 := Nat.mod_lt _ (by decide)
  generalize d % 10 = k at h
  interval_cases k <;> decide

theorem natDigitsFuel_mem (fuel n : Nat) : ∀ c ∈ natDigitsFuel fuel n, c ∈ "0123456789".toList := by
  induction fuel generalizing n with
  | zero =>
    intro c hc
    simp only [natDigitsFuel, List.mem_singleton] at hc
    rw [hc]; exact digitChar_mem n
  | succ f ih =>
    intro c hc
    unfold natDigitsFuel at hc
    split at hc
    · simp only [List.mem_singleton] at hc
      rw [hc]; exact digitChar_mem n
    · rcases List.mem_append.mp hc with h | h
      · exact ih _ c h
      · simp only [List.mem_singleton] at h
        rw [h]; exact digitChar_mem n

theorem newline_not_mem_natDigits (n : Nat) : '\n' ∉ natDigits n := by
  intro h
  have := natDigitsFuel_mem n n _ h
  revert this
  decide

theorem newline_not_mem_fmtFloat0 (x : F64) : '\n' ∉ fmtFloat0 x := by
  cases x with
  | negZero => decide
  | ofRat q =>
    show '\n' ∉ (if q < 0 then '-' :: natDigits (roundHalfEven (-q)).natAbs
      else natDigits (roundHalfEven q).natAbs)
    split
    · intro h
      rcases List.mem_cons.mp h with h | h
      · revert h; decide
      · exact newline_not_mem_natDigits _ h
    · exact newline_not_mem_natDigits _

theorem colorStr_eq (s w : F64) :
    colorStr s w =
      if 95 ≤ max s.toRat w.toRat then " | color=red".toList
      else if 80 ≤ max s.toRat w.toRat then " | color=orange".toList
      else [] := by
  have hmax : (if s.toRat < w.toRat then w else s).toRat = max s.toRat w.toRat := by
    rcases lt_or_le s.toRat w.toRat with h | h
    · rw [if_pos h, max_eq_right h.le]
    · rw [if_neg (not_lt.mpr h), max_eq_left h]
  unfold colorStr
  dsimp only
  rw [hmax]
  unfold getColor
  by_cases h1 : 95 ≤ max s.toRat w.toRat
  · rw [if_pos h1, if_pos h1, if_pos (by decide)]
    rfl
  · rw [if_neg h1, if_neg h1]
    by_cases h2 : 80 ≤ max s.toRat w.toRat
    · rw [if_pos h2, if_pos h2, if_pos (by decide)]
      rfl
    · rw [if_neg h2, if_neg h2, if_neg (by simp)]

theorem newline_not_mem_specHeader (d : UsageData) : '\n' ∉ specHeader d := by
  unfold specHeader
  dsimp only
  intro h
  simp only [List.mem_append] at h
  rcases h with ((((h | h) | h) | h) | h) | h
  · revert h; decide
  · exact newline_not_mem_fmtFloat0 _ h
  · revert h; decide
  · exact newline_not_mem_fmtFloat0 _ h
  · revert h; decide
  · split_ifs at h <;> revert h <;> decide

theorem report_ok (untilNs : Str → Option ℤ) (envFile : Str) (d : UsageData) :
    ∃ rest, report untilNs envFile (some d) "ok".toList = Run.exit (specHeader d :: rest) := by
  unfold report
  rw [if_neg (by decide), if_neg (by decide), if_neg (by decide)]
  dsimp only
  rw [colorStr_eq]
  exact ⟨_, rfl⟩

theorem specHeader_42_96 :
    specHeader ⟨some ⟨F64.ofRat 42, "t1".toList⟩, some ⟨F64.ofRat 96, "t2".toList⟩⟩ =
      "C: 42%/96% | color=red".toList := by
  decide!

theorem specHeader_negZero_50 :
    specHeader ⟨some ⟨F64.negZero, "t1".toList⟩, some ⟨F64.ofRat 50, "t2".toList⟩⟩ =
      "C: -0%/50%".toList := by
  decide!

/-! ## The claims about the output of main -/

/-- C2: when the fetch is `ok` with snapshot `d`, the first line of the
output of `main` is the header the specification describes: `C: S%/W%` with
the two utilizations printed with zero decimals as `%.0f` prints them (an
absent period counting as 0), followed by ` | color=red` when their maximum
is at least 95, by ` | color=orange` when it is at least 80 and below 95, and
by nothing otherwise. -/
theorem main_ok_first_line (w : World) (home : Str) (d : UsageData)
    (hhome : w.homeDir = some home)
    (hload : (loadEnv (w.readFile (envFilePath home))).2 = false)
    (horg : envGet (loadEnv (w.readFile (envFilePath home))).1 "CLAUDE_ORG_ID".toList ≠ [])
    (hkey : envGet (loadEnv (w.readFile (envFilePath home))).1 "CLAUDE_SESSION_KEY".toList ≠ [])
    (hfetch : fetchUsage w.http w.decode
        (envGet (loadEnv (w.readFile (envFilePath home))).1 "CLAUDE_ORG_ID".toList)
        (envGet (loadEnv (w.readFile (envFilePath home))).1 "CLAUDE_SESSION_KEY".toList)
      = (some d, "ok".toList)) :
    ∃ rest, textLines (main w).stdout = specHeader d :: rest := by
  unfold main
  rw [mainRun_of_fetch w home hhome hload horg hkey, hfetch]
  obtain ⟨rest, hrest⟩ := report_ok w.untilNs (envFilePath home) d
  rw [hrest, Run.stdout, textLines_printed, List.flatMap_cons,
    splitOnChar_of_not_mem _ _ (newline_not_mem_specHeader d)]
  exact ⟨_, rfl⟩

/-- The claim C2 at concrete runs: utilizations 42 and 96 give the first
line `C: 42%/96% | color=red`, and utilizations -0 and 50 give `C: -0%/50%`. -/
theorem main_ok_first_line_witness :
    (∃ rest, textLines (main worldOk).stdout = "C: 42%/96% | color=red".toList :: rest) ∧
    (∃ rest, textLines (main worldNegZero).stdout = "C: -0%/50%".toList :: rest) :=
  ⟨specHeader_42_96 ▸
    main_ok_first_line worldOk "/Users/u".toList _ rfl (by decide!) (by decide!) (by decide!)
      (by decide!),
   specHeader_negZero_50 ▸
    main_ok_first_line worldNegZero "/Users/u".toList _ rfl (by decide!) (by decide!)
      (by decide!) (by decide!)⟩

/-! ## Facts about paths of plain names -/

theorem joinSep_cons_of_ne_nil (sep x : Str) (rest : List Str) (h : rest ≠ []) :
    joinSep sep (x :: rest) = x ++ sep ++ joinSep sep rest := by
  cases rest with
  | nil => exact absurd rfl h
  | cons y r => rfl

theorem joinSep_append (sep : Str) (l1 l2 : List Str) (h1 : l1 ≠ []) (h2 : l2 ≠ []) :
    joinSep sep (l1 ++ l2) = joinSep sep l1 ++ sep ++ joinSep sep l2 := by
  induction l1 with
  | nil => exact absurd rfl h1
  | cons x rest ih =>
    by_cases hr : rest = []
    · subst hr
      simp only [List.singleton_append, joinSep]
      exact joinSep_cons_of_ne_nil sep x l2 h2
    · rw [List.cons_append, joinSep_cons_of_ne_nil sep x (rest ++ l2) (by simp [hr]),
        joinSep_cons_of_ne_nil sep x rest hr, ih hr]
      simp [List.append_assoc]

theorem splitOnChar_joinSep (names : List Str) (hne : names ≠ [])
    (h : ∀ e ∈ names, '/' ∉ e) : splitOnChar '/' (joinSep ['/'] names) = names := by
  induction names with
  | nil => exact absurd rfl hne
  | cons x rest ih =>
    by_cases hr : rest = []
    · subst hr
      exact splitOnChar_of_not_mem '/' x (h x (by simp))
    · rw [joinSep_cons_of_ne_nil _ x rest hr]
      have : x ++ ['/'] ++ joinSep ['/'] rest = x ++ '/' :: joinSep ['/'] rest := by simp
      rw [this, splitOnChar_append_sep, splitOnChar_of_not_mem '/' x (h x (by simp)),
        ih hr (fun e he => h e (List.mem_cons_of_mem _ he))]
      rfl

theorem cleanStep_of_name (rooted : Bool) (kept : List Str) (e : Str) (h : isPathName e) :
    cleanStep rooted kept e = e :: kept := by
  unfold cleanStep
  rw [if_neg (by
    rintro (h1 | h1)
    · exact h.1 h1
    · exact h.2.2.1 h1), if_neg h.2.2.2]

theorem foldl_cleanStep_of_names (rooted : Bool) (names kept : List Str)
    (h : ∀ e ∈ names, isPathName e) :
    names.foldl (cleanStep rooted) kept = names.reverse ++ kept := by
  induction names generalizing kept with
  | nil => rfl
  | cons x rest ih =>
    rw [List.foldl_cons, cleanStep_of_name rooted kept x (h x (by simp)),
      ih _ (fun e he => h e (List.mem_cons_of_mem _ he))]
    simp

/-- An absolute path of plain names is clean. -/
theorem clean_of_names (names : List Str) (hne : names ≠ []) (h : ∀ e ∈ names, isPathName e) :
    clean ('/' :: joinSep ['/'] names) = '/' :: joinSep ['/'] names := by
  have hsplit : splitOnChar '/' ('/' :: joinSep ['/'] names) = [] :: names := by
    rw [splitOnChar, if_pos rfl, splitOnChar_joinSep names hne (fun e he => (h e he).2.1)]
  unfold clean
  rw [if_neg (by simp)]
  dsimp only
  rw [hsplit, List.foldl_cons]
  have h0 : cleanStep (decide (('/' :: joinSep ['/'] names).head? = some '/')) [] [] = [] := by
    simp [cleanStep]
  rw [h0, foldl_cleanStep_of_names _ names [] h]
  simp

theorem configDir_eq : configDir = joinSep ['/'] [".config".toList, "menubar-utils".toList] := by
  decide

/-- For a home directory given as an absolute path of plain names, the
config directory path is the home directory followed by
`/.config/menubar-utils`. -/
theorem configDirPath_of_names (names : List Str) (hne : names ≠ [])
    (h : ∀ e ∈ names, isPathName e) :
    configDirPath ('/' :: joinSep ['/'] names)
      = '/' :: joinSep ['/'] names ++ "/.config/menubar-utils".toList := by
  have hall : ∀ e ∈ names ++ [".config".toList, "menubar-utils".toList], isPathName e := by
    intro e he
    rcases List.mem_append.mp he with h1 | h1
    · exact h e h1
    · simp only [List.mem_cons, List.mem_singleton, List.not_mem_nil, or_false] at h1
      rcases h1 with h1 | h1 <;> subst h1 <;> unfold isPathName <;> decide
  have hj : joinSep ['/'] ['/' :: joinSep ['/'] names, configDir]
      = '/' :: joinSep ['/'] (names ++ [".config".toList, "menubar-utils".toList]) := by
    rw [joinSep_append _ names _ hne (by simp), configDir_eq]
    simp [joinSep]
  unfold configDirPath filepathJoin
  have hd : List.dropWhile (fun e : Str => e.isEmpty) ['/' :: joinSep ['/'] names, configDir]
      = ['/' :: joinSep ['/'] names, configDir] := by
    simp [List.dropWhile]
  rw [hd]
  dsimp only
  rw [hj, clean_of_names _ (by simp) hall, joinSep_append _ names _ hne (by simp)]
  simp [joinSep]

/-- C8: when `loadEnv` returns an error and the home directory path does not
contain `bash=`, the output of `main` begins with the line `C: CFG | color=red`,
its second line is `---`, exactly two of its lines contain `bash=`, and the
two printed items that contain it are the create and the open item, each with
the config directory path as its parameter, which for a home directory that
is an absolute path of plain names is the home directory followed by
`/.config/menubar-utils`; the run makes no call of `fetchUsage` and is the
same for every network. -/
theorem main_config_unreadable (w : World) (home : Str) (hhome : w.homeDir = some home)
    (herr : (loadEnv (w.readFile (envFilePath home))).2 = true)
    (hb : containsStr home "bash=".toList = false) :
    (∃ rest, textLines (main w).stdout = "C: CFG | color=red".toList :: "---".toList :: rest ∧
      (rest.filter (fun l => containsStr l "bash=".toList)).length = 2) ∧
    (∃ items, main w = Run.exit items ∧
      items.filter (fun l => containsStr l "bash=".toList) =
        ["Create config dir | bash=mkdir param1=-p param2=".toList
            ++ configDirPath home ++ " terminal=false".toList,
         "Open config dir | bash=open param1=".toList
            ++ configDirPath home ++ " terminal=false".toList]) ∧
    (∀ names : List Str, names ≠ [] → (∀ e ∈ names, isPathName e) →
      home = '/' :: joinSep ['/'] names →
      configDirPath home = home ++ "/.config/menubar-utils".toList) ∧
    fetchCalls w = [] ∧
    (∀ (http : Http) (decode : Body → Option UsageData),
      main ⟨w.homeDir, w.readFile, http, decode, w.untilNs⟩ = main w) := by
  have hcfg : ¬ "bash=".toList <:+: configDirPath home :=
    bash_not_in_path home [configDir] hb (by decide)
  have henv : ¬ "bash=".toList <:+: envFilePath home :=
    bash_not_in_path home [configDir, "claude-usage.env".toList] hb (by decide)
  have htail : ¬ "bash=".toList <:+: configDirPath home ++ " terminal=false".toList := by
    intro h
    rcases infix_of_infix_append_cons _ _ "terminal=false".toList ' ' (by decide) h with h' | h'
    · exact hcfg h'
    · exact absurd ((containsStr_iff _ _).mpr h') (by decide)
  have hexp : ¬ "bash=".toList <:+:
      "Expected: ".toList ++ envFilePath home := by
    intro h
    rcases infix_of_infix_append_cons _ "Expected:".toList _ ' ' (by decide) h with h' | h'
    · exact absurd ((containsStr_iff _ _).mpr h') (by decide)
    · exact henv h'
  have hmain := main_of_load_error w home hhome herr
  refine ⟨?_, ?_, ?_, ?_, ?_⟩
  · have e1 : splitOnChar '\n' "C: CFG | color=red".toList = ["C: CFG | color=red".toList] := by
      decide
    have e2 : splitOnChar '\n' "---".toList = ["---".toList] := by decide
    rw [hmain, Run.stdout, textLines_printed]
    simp only [List.flatMap_cons, List.flatMap_nil, e1, e2, List.cons_append, List.nil_append,
      List.append_nil]
    refine ⟨_, rfl, ?_⟩
    have hcreate : "bash=".toList <:+: "Create config dir | bash=mkdir param1=-p param2=".toList :=
      (containsStr_iff _ _).mp (by decide)
    have hopen : "bash=".toList <:+: "Open config dir | bash=open param1=".toList :=
      (containsStr_iff _ _).mp (by decide)
    have c2 : containsStr "---".toList "bash=".toList = false := by decide
    rw [List.filter_append, List.filter_append,
      List.filter_cons_of_neg (by rw [c2]; decide), List.filter_append,
      filter_lines_of_not_infix _ _ hexp,
      filter_lines_of_not_infix _ "Cannot read config file".toList
        (by rw [← containsStr_iff]; decide),
      List.append_assoc _ (configDirPath home) _,
      List.append_assoc _ (configDirPath home) _]
    simp only [List.nil_append, List.length_append]
    rw [filter_lines_of_head _ _ _ (by decide) hcreate htail,
      filter_lines_of_head _ _ _ (by decide) hopen htail]
  · refine ⟨_, hmain, ?_⟩
    have c1 : containsStr "C: CFG | color=red".toList "bash=".toList = false := by decide
    have c2 : containsStr "---".toList "bash=".toList = false := by decide
    have c3 : containsStr "Cannot read config file".toList "bash=".toList = false := by decide
    have c4 : containsStr ("Expected: ".toList ++
        envFilePath home) "bash=".toList = false :=
      (containsStr_false_iff _ _).mpr hexp
    have c5 : containsStr ("Create config dir | bash=mkdir param1=-p param2=".toList
        ++ configDirPath home ++ " terminal=false".toList) "bash=".toList = true := by
      rw [containsStr_iff, List.append_assoc]
      exact List.IsInfix.trans ((containsStr_iff _ _).mp (by decide))
        (List.prefix_append _ _).isInfix
    have c6 : containsStr ("Open config dir | bash=open param1=".toList
        ++ configDirPath home ++ " terminal=false".toList) "bash=".toList = true := by
      rw [containsStr_iff, List.append_assoc]
      exact List.IsInfix.trans ((containsStr_iff _ _).mp (by decide))
        (List.prefix_append _ _).isInfix
    simp only [List.filter_cons, List.filter_nil, c1, c2, c3, c4, c5, c6, if_true, if_false,
      Bool.false_eq_true]
  · intro names hne hnames hhome'
    rw [hhome']
    exact configDirPath_of_names names hne hnames
  · unfold fetchCalls
    rw [mainRun_of_load_error w home hhome herr]
  · intro http decode
    rw [hmain]
    exact main_of_load_error ⟨w.homeDir, w.readFile, http, decode, w.untilNs⟩ home hhome herr

/-- The claim C8 at a concrete run, with home directory `/Users/u` and no
config file: the two items name `/Users/u/.config/menubar-utils`, and no
fetch is made. -/
theorem main_config_unreadable_witness :
    (∃ items, main worldNoConfig = Run.exit items ∧
      items.filter (fun l => containsStr l "bash=".toList) =
        [("Create config dir | bash=mkdir param1=-p "
            ++ "param2=/Users/u/.config/menubar-utils terminal=false").toList,
         "Open config dir | bash=open param1=/Users/u/.config/menubar-utils terminal=false".toList]) ∧
    fetchCalls worldNoConfig = [] ∧
    fetchCalls worldOk = [("org".toList, "key".toList)] :=
  ⟨(main_config_unreadable worldNoConfig "/Users/u".toList rfl rfl (by decide)).2.1,
    (main_config_unreadable worldNoConfig "/Users/u".toList rfl rfl (by decide)).2.2.2.1,
    by decide!⟩

/-- C9, as stated, fails: with the home directory unresolvable a line does
follow the `---` separator; the output is not just the header and the
separator. -/
theorem main_home_unresolvable_prints_a_line :
    worldNoHome.homeDir = none ∧
    textLines (main worldNoHome).stdout ≠ ["C: ERR | color=red".toList, "---".toList] ∧
    textLines (main worldNoHome).stdout =
      ["C: ERR | color=red".toList, "---".toList, "Cannot determine home directory".toList] := by
  decide

/-- C9, amended: when the home directory is unresolvable, the output of
`main` is the fixed red header `C: ERR | color=red`, the separator `---` and
exactly one more line, the text `Cannot determine home directory`, which
carries no directive (it contains no `|`). -/
theorem main_home_unresolvable (w : World) (h : w.homeDir = none) :
    main w = Run.exit ["C: ERR | color=red".toList, "---".toList,
      "Cannot determine home directory".toList] ∧
    textLines (main w).stdout = ["C: ERR | color=red".toList, "---".toList,
      "Cannot determine home directory".toList] ∧
    '|' ∉ "Cannot determine home directory".toList := by
  have hm : main w = Run.exit ["C: ERR | color=red".toList, "---".toList,
      "Cannot determine home directory".toList] := by
    unfold main
    rw [mainRun_of_no_home w h]
    rfl
  refine ⟨hm, ?_, by decide⟩
  rw [hm]
  decide

/-- The amended claim C9 at a concrete run. -/
theorem main_home_unresolvable_witness :
    textLines (main worldNoHome).stdout = ["C: ERR | color=red".toList, "---".toList,
      "Cannot determine home directory".toList] :=
  (main_home_unresolvable worldNoHome rfl).2.1

/-! ## Facts about rounding to `float64` -/

theorem bitLenFuel_zero (fuel : Nat) : bitLenFuel fuel 0 = 0 := by
  cases fuel <;> simp [bitLenFuel]

theorem bitLenFuel_spec (fuel n : Nat) (h : n ≤ fuel) :
    n < 2 ^ bitLenFuel fuel n ∧ (0 < n → 2 ^ bitLenFuel fuel n ≤ 2 * n) := by
  induction fuel generalizing n with
  | zero =>
    have : n = 0 := Nat.le_zero.mp h
    subst this
    simp [bitLenFuel]
  | succ f ih =>
    by_cases hn : n = 0
    · subst hn
      simp [bitLenFuel]
    · have hpos : 0 < n := Nat.pos_of_ne_zero hn
      have hle : n / 2 ≤ f := by omega
      obtain ⟨h1, h2⟩ := ih (n / 2) hle
      have hb : bitLenFuel (f + 1) n = bitLenFuel f (n / 2) + 1 := by
        simp [bitLenFuel, hn]
      rw [hb, pow_succ]
      constructor
      · omega
      · intro _
        by_cases hz : n / 2 = 0
        · rw [hz, bitLenFuel_zero]
          omega
        · have := h2 (Nat.pos_of_ne_zero hz)
          omega

theorem bitLen_spec (n : Nat) (h : 0 < n) : n < 2 ^ bitLen n ∧ 2 ^ bitLen n ≤ 2 * n := by
  have := bitLenFuel_spec n n le_rfl
  exact ⟨this.1, this.2 h⟩

theorem binExp_spec (q : ℚ) (hq : 0 < q) :
    (2 : ℚ) ^ binExp q ≤ q ∧ q < (2 : ℚ) ^ (binExp q + 1) := by
  have hnum : 0 < q.num := Rat.num_pos.mpr hq
  have hden : 0 < q.den := q.den_pos
  have hnat : 0 < q.num.natAbs := Int.natAbs_pos.mpr hnum.ne'
  obtain ⟨n1, n2⟩ := bitLen_spec q.num.natAbs hnat
  obtain ⟨d1, d2⟩ := bitLen_spec q.den hden
  have hqe : q = (q.num.natAbs : ℚ) / (q.den : ℚ) := by
    have h1 : ((q.num.natAbs : ℕ) : ℚ) = (q.num : ℚ) := by
      rw [Nat.cast_natAbs, abs_of_pos hnum]
    rw [h1]
    exact (Rat.num_div_den q).symm
  set a := q.num.natAbs with ha
  set b := q.den with hb
  set la := bitLen a with hla
  set lb := bitLen b with hlb
  have hbq : (0 : ℚ) < (b : ℚ) := by exact_mod_cast hden
  have two_pos : (0 : ℚ) < 2 := by norm_num
  -- the bounds on numerator and denominator, in ℚ
  have n1q : (a : ℚ) < (2 : ℚ) ^ la := by exact_mod_cast n1
  have n2q : (2 : ℚ) ^ la ≤ 2 * (a : ℚ) := by exact_mod_cast n2
  have d1q : (b : ℚ) < (2 : ℚ) ^ lb := by exact_mod_cast d1
  have d2q : (2 : ℚ) ^ lb ≤ 2 * (b : ℚ) := by exact_mod_cast d2
  have hk : ∀ j : ℤ, (2 : ℚ) ^ (((la : ℤ) - (lb : ℤ)) + j) = (2 : ℚ) ^ la / (2 : ℚ) ^ lb * 2 ^ j := by
    intro j
    rw [zpow_add₀ two_pos.ne', zpow_sub₀ two_pos.ne', zpow_natCast, zpow_natCast]
  have hlo : (2 : ℚ) ^ (((la : ℤ) - (lb : ℤ)) + (-1)) < q := by
    rw [hk, hqe, div_mul_eq_mul_div, div_lt_div_iff₀ (by positivity) hbq]
    have : (2 : ℚ) ^ (-1 : ℤ) = 1 / 2 := by norm_num
    rw [this]
    have hpa : (0 : ℚ) < (2 : ℚ) ^ la := by positivity
    have hpb : (0 : ℚ) < (2 : ℚ) ^ lb := by positivity
    nlinarith
  have hhi : q < (2 : ℚ) ^ (((la : ℤ) - (lb : ℤ)) + 1) := by
    rw [hk, hqe, div_mul_eq_mul_div, div_lt_div_iff₀ hbq (by positivity)]
    have : (2 : ℚ) ^ (1 : ℤ) = 2 := by norm_num
    rw [this]
    have hpa : (0 : ℚ) < (2 : ℚ) ^ la := by positivity
    have hpb : (0 : ℚ) < (2 : ℚ) ^ lb := by positivity
    have hapos : (0 : ℚ) < (a : ℚ) := by exact_mod_cast hnat
    nlinarith
  unfold binExp
  simp only [← ha, ← hb, ← hla, ← hlb]
  split_ifs with hc
  · exact ⟨hc, hhi⟩
  · constructor
    · have : ((la : ℤ) - (lb : ℤ)) - 1 = ((la : ℤ) - (lb : ℤ)) + (-1) := by ring
      rw [this]
      exact hlo.le
    · have : ((la : ℤ) - (lb : ℤ)) - 1 + 1 = ((la : ℤ) - (lb : ℤ)) := by ring
      rw [this]
      exact not_le.mp hc

theorem binExp_unique (q : ℚ) (e : ℤ) (h1 : (2 : ℚ) ^ e ≤ q) (h2 : q < (2 : ℚ) ^ (e + 1)) :
    binExp q = e := by
  have hq : 0 < q := lt_of_lt_of_le (by positivity) h1
  obtain ⟨s1, s2⟩ := binExp_spec q hq
  have a1 : e < binExp q + 1 :=
    (zpow_lt_zpow_iff_right₀ (by norm_num : (1 : ℚ) < 2)).mp (lt_of_le_of_lt h1 s2)
  have a2 : binExp q < e + 1 :=
    (zpow_lt_zpow_iff_right₀ (by norm_num : (1 : ℚ) < 2)).mp (lt_of_le_of_lt s1 h2)
  omega

theorem roundHalfEven_ge (y : ℚ) (n : ℤ) (h : (n : ℚ) ≤ y) : n ≤ roundHalfEven y := by
  have hf : n ≤ ⌊y⌋ := Int.le_floor.mpr h
  unfold roundHalfEven
  dsimp only
  split_ifs <;> omega

theorem roundHalfEven_le_of_lt_half (y : ℚ) (n : ℤ) (h : y < (n : ℚ) + 1 / 2) :
    roundHalfEven y ≤ n := by
  have hfl : (⌊y⌋ : ℚ) ≤ y := Int.floor_le y
  have hf : ⌊y⌋ ≤ n := by
    have : (⌊y⌋ : ℚ) < (n : ℚ) + 1 := by linarith
    have : ⌊y⌋ < n + 1 := by exact_mod_cast this
    omega
  unfold roundHalfEven
  dsimp only
  rcases lt_or_eq_of_le hf with hlt | heq
  · split_ifs <;> omega
  · have hr : y - (⌊y⌋ : ℚ) < 1 / 2 := by rw [heq]; linarith
    rw [if_pos hr]
    exact hf

theorem roundF64_of_pos (q : ℚ) (hq : 0 < q) :
    roundF64 q = (roundHalfEven (q / (2 : ℚ) ^ (binExp q - 52)) : ℚ) * (2 : ℚ) ^ (binExp q - 52) := by
  unfold roundF64
  rw [if_neg hq.ne']
  dsimp only
  rw [abs_of_pos hq, if_neg (not_lt.mpr hq.le)]

theorem roundF64_le_of_lt_half (x : ℚ) (e n : ℤ) (he1 : (2 : ℚ) ^ e ≤ x)
    (he2 : x < (2 : ℚ) ^ (e + 1)) (h : x < ((n : ℚ) + 1 / 2) * (2 : ℚ) ^ (e - 52)) :
    roundF64 x ≤ (n : ℚ) * (2 : ℚ) ^ (e - 52) := by
  have hx : 0 < x := lt_of_lt_of_le (by positivity) he1
  have hu : (0 : ℚ) < (2 : ℚ) ^ (e - 52) := by positivity
  rw [roundF64_of_pos x hx, binExp_unique x e he1 he2]
  have hr : roundHalfEven (x / (2 : ℚ) ^ (e - 52)) ≤ n :=
    roundHalfEven_le_of_lt_half _ _ (by rwa [div_lt_iff₀ hu])
  have : ((roundHalfEven (x / (2 : ℚ) ^ (e - 52)) : ℤ) : ℚ) ≤ (n : ℚ) := by exact_mod_cast hr
  exact mul_le_mul_of_nonneg_right this hu.le

/-- The exponent of a representable bound above `2 ^ e` leaves its
significand an integer on the grid of exponent `e`. -/
theorem grid_int (m : ℕ) (k e : ℤ) (hm : (m : ℚ) < (2 : ℚ) ^ (53 : ℕ))
    (h : (2 : ℚ) ^ e ≤ (m : ℚ) * (2 : ℚ) ^ k) :
    ∃ n : ℤ, (n : ℚ) * (2 : ℚ) ^ (e - 52) = (m : ℚ) * (2 : ℚ) ^ k := by
  have hk : (0 : ℚ) < (2 : ℚ) ^ k := by positivity
  have h1 : (2 : ℚ) ^ e < (2 : ℚ) ^ ((53 : ℤ) + k) := by
    rw [zpow_add₀ (by norm_num : (2 : ℚ) ≠ 0)]
    calc (2 : ℚ) ^ e ≤ (m : ℚ) * (2 : ℚ) ^ k := h
      _ < (2 : ℚ) ^ (53 : ℤ) * (2 : ℚ) ^ k := by
        apply mul_lt_mul_of_pos_right _ hk
        exact_mod_cast hm
  have h2 : e < 53 + k := (zpow_lt_zpow_iff_right₀ (by norm_num : (1 : ℚ) < 2)).mp h1
  obtain ⟨t, ht⟩ : ∃ t : ℕ, (t : ℤ) = k - e + 52 := ⟨(k - e + 52).toNat, by omega⟩
  refine ⟨(m : ℤ) * 2 ^ t, ?_⟩
  have hk' : k = (t : ℤ) + (e - 52) := by omega
  rw [hk', zpow_add₀ (by norm_num : (2 : ℚ) ≠ 0), zpow_natCast]
  push_cast
  ring

theorem roundF64_le (x : ℚ) (hx : 0 < x) (m : ℕ) (k : ℤ) (hm : (m : ℚ) < (2 : ℚ) ^ (53 : ℕ))
    (h : x ≤ (m : ℚ) * (2 : ℚ) ^ k) : roundF64 x ≤ (m : ℚ) * (2 : ℚ) ^ k := by
  obtain ⟨s1, s2⟩ := binExp_spec x hx
  obtain ⟨n, hn⟩ := grid_int m k (binExp x) hm (le_trans s1 h)
  rw [← hn]
  apply roundF64_le_of_lt_half x (binExp x) n s1 s2
  have hu : (0 : ℚ) < (2 : ℚ) ^ (binExp x - 52) := by positivity
  rw [add_mul, hn]
  linarith [mul_pos (by norm_num : (0 : ℚ) < 1 / 2) hu]

theorem le_roundF64 (x : ℚ) (hx : 0 < x) (m : ℕ) (k : ℤ) (hm : (m : ℚ) < (2 : ℚ) ^ (53 : ℕ))
    (h : (m : ℚ) * (2 : ℚ) ^ k ≤ x) : (m : ℚ) * (2 : ℚ) ^ k ≤ roundF64 x := by
  obtain ⟨s1, s2⟩ := binExp_spec x hx
  have hu : (0 : ℚ) < (2 : ℚ) ^ (binExp x - 52) := by positivity
  have hgrid : (2 : ℚ) ^ binExp x = ((2 ^ 52 : ℤ) : ℚ) * (2 : ℚ) ^ (binExp x - 52) := by
    have : binExp x = 52 + (binExp x - 52) := by ring
    conv_lhs => rw [this, zpow_add₀ (by norm_num : (2 : ℚ) ≠ 0)]
    norm_num
  rw [roundF64_of_pos x hx]
  by_cases hc : (2 : ℚ) ^ binExp x ≤ (m : ℚ) * (2 : ℚ) ^ k
  · obtain ⟨n, hn⟩ := grid_int m k (binExp x) hm hc
    rw [← hn]
    apply mul_le_mul_of_nonneg_right _ hu.le
    have : n ≤ roundHalfEven (x / (2 : ℚ) ^ (binExp x - 52)) := by
      apply roundHalfEven_ge
      rw [le_div_iff₀ hu, hn]
      exact h
    exact_mod_cast this
  · have h52 : (2 ^ 52 : ℤ) ≤ roundHalfEven (x / (2 : ℚ) ^ (binExp x - 52)) := by
      apply roundHalfEven_ge
      rw [le_div_iff₀ hu, ← hgrid]
      exact s1
    have h52q : ((2 ^ 52 : ℤ) : ℚ) ≤ (roundHalfEven (x / (2 : ℚ) ^ (binExp x - 52)) : ℚ) := by
      exact_mod_cast h52
    calc (m : ℚ) * (2 : ℚ) ^ k ≤ (2 : ℚ) ^ binExp x := (not_le.mp hc).le
      _ = ((2 ^ 52 : ℤ) : ℚ) * (2 : ℚ) ^ (binExp x - 52) := hgrid
      _ ≤ _ := mul_le_mul_of_nonneg_right h52q hu.le

theorem roundF64_zero : roundF64 0 = 0 := by
  simp [roundF64]

/-- Conversion of a natural number below `2 ^ 53` to `float64` is exact. -/
theorem roundF64_natCast (n : ℕ) (h : (n : ℚ) < (2 : ℚ) ^ (53 : ℕ)) : roundF64 (n : ℚ) = n := by
  by_cases hn : n = 0
  · subst hn
    simpa using roundF64_zero
  · have hpos : (0 : ℚ) < (n : ℚ) := by exact_mod_cast Nat.pos_of_ne_zero hn
    have e1 := roundF64_le (n : ℚ) hpos n 0 h (by simp)
    have e2 := le_roundF64 (n : ℚ) hpos n 0 h (by simp)
    simp only [zpow_zero, mul_one] at e1 e2
    exact le_antisymm e1 e2

theorem roundF64_nonneg (x : ℚ) (hx : 0 ≤ x) : 0 ≤ roundF64 x := by
  rcases eq_or_lt_of_le hx with h | h
  · rw [← h, roundF64_zero]
  · have := le_roundF64 x h 0 0 (by positivity) (by simpa using h.le)
    simpa using this

/-- Rounding stays in the unit interval above a natural number `k`, given
the binary exponent `e` of `k` and half a unit in the last place of room
below `k + 1`. -/
theorem roundF64_floor_bounds (x : ℚ) (k e : ℕ) (he1 : 2 ^ e ≤ k) (he2 : k < 2 ^ (e + 1))
    (he : e ≤ 52) (hl : (k : ℚ) ≤ x) (hu : x + (2 : ℚ) ^ ((e : ℤ) - 53) < (k : ℚ) + 1) :
    (k : ℚ) ≤ roundF64 x ∧ roundF64 x ≤ (k : ℚ) + 1 - (2 : ℚ) ^ ((e : ℤ) - 52) := by
  have hkpos : (0 : ℚ) < (k : ℚ) := by
    have : 0 < k := lt_of_lt_of_le (by positivity) he1
    exact_mod_cast this
  have hx : 0 < x := lt_of_lt_of_le hkpos hl
  have hk53 : (k : ℚ) < (2 : ℚ) ^ (53 : ℕ) := by
    have h1 : (2 : ℕ) ^ (e + 1) ≤ 2 ^ 53 := Nat.pow_le_pow_right (by norm_num) (by omega)
    have : k < 2 ^ 53 := lt_of_lt_of_le he2 h1
    exact_mod_cast this
  constructor
  · have := le_roundF64 x hx k 0 hk53 (by simpa using hl)
    simpa using this
  · have hhalf : (2 : ℚ) ^ ((e : ℤ) - 53) = (1 / 2) * (2 : ℚ) ^ ((e : ℤ) - 52) := by
      have : (e : ℤ) - 53 = (-1) + ((e : ℤ) - 52) := by ring
      rw [this, zpow_add₀ (by norm_num : (2 : ℚ) ≠ 0)]
      norm_num
    have hupos : (0 : ℚ) < (2 : ℚ) ^ ((e : ℤ) - 52) := by positivity
    have hgrid : (((2 : ℤ) ^ (52 - e) : ℤ) : ℚ) * (2 : ℚ) ^ ((e : ℤ) - 52) = 1 := by
      push_cast
      rw [← zpow_natCast, ← zpow_add₀ (by norm_num : (2 : ℚ) ≠ 0)]
      have : ((52 - e : ℕ) : ℤ) + ((e : ℤ) - 52) = 0 := by omega
      rw [this, zpow_zero]
    have hn : ((((k : ℤ) + 1) * 2 ^ (52 - e) - 1 : ℤ) : ℚ) * (2 : ℚ) ^ ((e : ℤ) - 52)
        = (k : ℚ) + 1 - (2 : ℚ) ^ ((e : ℤ) - 52) := by
      have : ((((k : ℤ) + 1) * 2 ^ (52 - e) - 1 : ℤ) : ℚ)
          = ((k : ℚ) + 1) * (((2 : ℤ) ^ (52 - e) : ℤ) : ℚ) - 1 := by push_cast; ring
      rw [this, sub_mul, mul_assoc, hgrid]
      ring
    rw [← hn]
    apply roundF64_le_of_lt_half x (e : ℤ)
    · calc (2 : ℚ) ^ (e : ℤ) = ((2 ^ e : ℕ) : ℚ) := by push_cast; rw [zpow_natCast]
        _ ≤ (k : ℚ) := by exact_mod_cast he1
        _ ≤ x := hl
    · have h1 : (k : ℚ) + 1 ≤ (2 : ℚ) ^ ((e : ℤ) + 1) := by
        have : k + 1 ≤ 2 ^ (e + 1) := he2
        have hq : ((k + 1 : ℕ) : ℚ) ≤ ((2 ^ (e + 1) : ℕ) : ℚ) := by exact_mod_cast this
        have hz : (2 : ℚ) ^ ((e : ℤ) + 1) = ((2 ^ (e + 1) : ℕ) : ℚ) := by
          push_cast
          rw [← zpow_natCast]
          push_cast
          rfl
        rw [hz]
        push_cast at hq ⊢
        exact hq
      have hpos : (0 : ℚ) < (2 : ℚ) ^ ((e : ℤ) - 53) := by positivity
      linarith
    · rw [add_mul, hn, ← hhalf]
      linarith

theorem roundF64_frac_bounds (U n m : ℕ) (k : ℤ) (hn : n < U)
    (hU53 : (U : ℚ) < (2 : ℚ) ^ (53 : ℕ)) (hm : (m : ℚ) < (2 : ℚ) ^ (53 : ℕ))
    (hb : ((U : ℚ) - 1) / (U : ℚ) ≤ (m : ℚ) * (2 : ℚ) ^ k) :
    0 ≤ roundF64 (roundF64 (n : ℚ) / (U : ℚ)) ∧
      roundF64 (roundF64 (n : ℚ) / (U : ℚ)) ≤ (m : ℚ) * (2 : ℚ) ^ k := by
  have hUpos : (0 : ℚ) < (U : ℚ) := by
    have : 0 < U := lt_of_le_of_lt (Nat.zero_le n) hn
    exact_mod_cast this
  have hnq : (n : ℚ) < (U : ℚ) := by exact_mod_cast hn
  rw [roundF64_natCast n (lt_trans hnq hU53)]
  have hx0 : (0 : ℚ) ≤ (n : ℚ) / (U : ℚ) := by positivity
  refine ⟨roundF64_nonneg _ hx0, ?_⟩
  rcases eq_or_lt_of_le hx0 with h0 | hpos
  · rw [← h0, roundF64_zero]
    positivity
  · apply roundF64_le _ hpos m k hm
    refine le_trans ?_ hb
    rw [div_le_div_iff_of_pos_right hUpos]
    have : n + 1 ≤ U := hn
    have : ((n + 1 : ℕ) : ℚ) ≤ (U : ℚ) := by exact_mod_cast this
    push_cast at this
    linarith

/-- The `float64` sum of a whole part and a fraction stays in the unit
interval above the whole part. -/
theorem roundF64_whole_plus_frac (h E : ℕ) (f b : ℚ) (m : ℕ) (k : ℤ)
    (hm : (m : ℚ) < (2 : ℚ) ^ (53 : ℕ)) (hbm : b = (m : ℚ) * (2 : ℚ) ^ k)
    (hE : E ≤ 52) (hh : h < 2 ^ (E + 1)) (hf0 : 0 ≤ f) (hfb : f ≤ b)
    (hgap : b + (2 : ℚ) ^ ((E : ℤ) - 53) < 1) :
    (h : ℚ) ≤ roundF64 (roundF64 (h : ℚ) + f) ∧ roundF64 (roundF64 (h : ℚ) + f) < (h : ℚ) + 1 ∧
    (1 ≤ h → roundF64 (roundF64 (h : ℚ) + f)
      ≤ (h : ℚ) + 1 - (2 : ℚ) ^ ((Nat.log 2 h : ℤ) - 52)) := by
  have hh53 : (h : ℚ) < (2 : ℚ) ^ (53 : ℕ) := by
    have h1 : (2 : ℕ) ^ (E + 1) ≤ 2 ^ 53 := Nat.pow_le_pow_right (by norm_num) (by omega)
    have : h < 2 ^ 53 := lt_of_lt_of_le hh h1
    exact_mod_cast this
  rw [roundF64_natCast h hh53]
  have hEpos : (0 : ℚ) < (2 : ℚ) ^ ((E : ℤ) - 53) := by positivity
  by_cases hz : h = 0
  · subst hz
    simp only [Nat.cast_zero, zero_add]
    have hle : roundF64 f ≤ b := by
      rcases eq_or_lt_of_le hf0 with h0 | hpos
      · rw [← h0, roundF64_zero, hbm]
        positivity
      · rw [hbm]
        exact roundF64_le f hpos m k hm (hbm ▸ hfb)
    refine ⟨roundF64_nonneg f hf0, by linarith, ?_⟩
    intro h1
    omega
  · have hpos : 0 < h := Nat.pos_of_ne_zero hz
    have he1 : 2 ^ Nat.log 2 h ≤ h := Nat.pow_log_le_self 2 hz
    have he2 : h < 2 ^ (Nat.log 2 h + 1) := Nat.lt_pow_succ_log_self (by norm_num) h
    have heE : Nat.log 2 h ≤ E := by
      have : 2 ^ Nat.log 2 h < 2 ^ (E + 1) := lt_of_le_of_lt he1 hh
      have := (Nat.pow_lt_pow_iff_right (by norm_num : 1 < 2)).mp this
      omega
    have hmono : (2 : ℚ) ^ ((Nat.log 2 h : ℤ) - 53) ≤ (2 : ℚ) ^ ((E : ℤ) - 53) :=
      zpow_le_zpow_right₀ (by norm_num) (by omega)
    have hupos : (0 : ℚ) < (2 : ℚ) ^ ((Nat.log 2 h : ℤ) - 52) := by positivity
    obtain ⟨b1, b2⟩ := roundF64_floor_bounds ((h : ℚ) + f) h (Nat.log 2 h) he1 he2
      (by omega) (by linarith) (by linarith)
    exact ⟨b1, by linarith, fun _ => b2⟩

theorem durationHours_bounds (d : ℕ) (hd : d < 4096 * 3600000000000) :
    ((d / 3600000000000 : ℕ) : ℚ) ≤ durationHours (d : ℤ) ∧
    durationHours (d : ℤ) < ((d / 3600000000000 : ℕ) : ℚ) + 1 ∧
    (1 ≤ d / 3600000000000 → durationHours (d : ℤ)
      ≤ ((d / 3600000000000 : ℕ) : ℚ) + 1
        - (2 : ℚ) ^ ((Nat.log 2 (d / 3600000000000) : ℤ) - 52)) := by
  have e1 : ((Int.tdiv (d : ℤ) hourNs : ℤ) : ℚ) = ((d / 3600000000000 : ℕ) : ℚ) := by
    rw [Int.tdiv_eq_ediv (by positivity) (by decide)]
    norm_cast
  have e2 : ((Int.tmod (d : ℤ) hourNs : ℤ) : ℚ) = ((d % 3600000000000 : ℕ) : ℚ) := by
    rw [Int.tmod_eq_emod (by positivity) (by decide)]
    norm_cast
  have hfr := roundF64_frac_bounds 3600000000000 (d % 3600000000000) 35184372088823 (-45)
    (Nat.mod_lt _ (by norm_num)) (by norm_num) (by norm_num) (by norm_num)
  unfold durationHours
  rw [e1, e2]
  have hcast : ((3600000000000 : ℕ) : ℚ) = (3600000000000 : ℚ) := by norm_num
  rw [hcast] at hfr
  exact roundF64_whole_plus_frac (d / 3600000000000) 11 _ _ 35184372088823 (-45)
    (by norm_num) rfl (by norm_num)
    (by rw [Nat.div_lt_iff_lt_mul (by norm_num)]; norm_num; omega) hfr.1 hfr.2 (by norm_num)

theorem durationMinutes_bounds (d : ℕ) (hd : d < 24 * 3600000000000) :
    ((d / 60000000000 : ℕ) : ℚ) ≤ durationMinutes (d : ℤ) ∧
    durationMinutes (d : ℤ) < ((d / 60000000000 : ℕ) : ℚ) + 1 := by
  have e1 : ((Int.tdiv (d : ℤ) minuteNs : ℤ) : ℚ) = ((d / 60000000000 : ℕ) : ℚ) := by
    rw [Int.tdiv_eq_ediv (by positivity) (by decide)]
    norm_cast
  have e2 : ((Int.tmod (d : ℤ) minuteNs : ℤ) : ℚ) = ((d % 60000000000 : ℕ) : ℚ) := by
    rw [Int.tmod_eq_emod (by positivity) (by decide)]
    norm_cast
  have hfr := roundF64_frac_bounds 60000000000 (d % 60000000000) 68719476735 (-36)
    (Nat.mod_lt _ (by norm_num)) (by norm_num) (by norm_num) (by norm_num)
  unfold durationMinutes
  rw [e1, e2]
  have hcast : ((60000000000 : ℕ) : ℚ) = (60000000000 : ℚ) := by norm_num
  rw [hcast] at hfr
  have := roundF64_whole_plus_frac (d / 60000000000) 10 _ _ 68719476735 (-36)
    (by norm_num) rfl (by norm_num)
    (by rw [Nat.div_lt_iff_lt_mul (by norm_num)]; norm_num; omega) hfr.1 hfr.2 (by norm_num)
  exact ⟨this.1, this.2.1⟩

theorem truncToInt_eq (x : ℚ) (k : ℕ) (h1 : (k : ℚ) ≤ x) (h2 : x < (k : ℚ) + 1) :
    truncToInt x = (k : ℤ) := by
  have hx : 0 ≤ x := le_trans (by positivity) h1
  unfold truncToInt
  rw [if_pos hx, Int.floor_eq_iff]
  exact ⟨by exact_mod_cast h1, by exact_mod_cast h2⟩

theorem days_bounds (d : ℕ) (hd : d < 4096 * 3600000000000) (h24 : 24 ≤ d / 3600000000000) :
    ((d / 3600000000000 / 24 : ℕ) : ℚ) ≤ roundF64 (durationHours (d : ℤ) / 24) ∧
    roundF64 (durationHours (d : ℤ) / 24) < ((d / 3600000000000 / 24 : ℕ) : ℚ) + 1 := by
  obtain ⟨t1, _, t3⟩ := durationHours_bounds d hd
  have t3 := t3 (by omega)
  set h := d / 3600000000000 with hh
  set total := durationHours (d : ℤ) with htotal
  have hh4096 : h < 4096 := by
    rw [hh, Nat.div_lt_iff_lt_mul (by norm_num)]
    exact hd
  have hD1 : 1 ≤ h / 24 := by omega
  have hDne : h / 24 ≠ 0 := by omega
  have hne : h ≠ 0 := by omega
  have j1 : 2 ^ Nat.log 2 (h / 24) ≤ h / 24 := Nat.pow_log_le_self 2 hDne
  have j2 : h / 24 < 2 ^ (Nat.log 2 (h / 24) + 1) := Nat.lt_pow_succ_log_self (by norm_num) _
  have e2 : h < 2 ^ (Nat.log 2 h + 1) := Nat.lt_pow_succ_log_self (by norm_num) _
  -- the exponent of the hours is at least four above the exponent of the days
  have hje : Nat.log 2 (h / 24) + 4 ≤ Nat.log 2 h := by
    have hmul : h / 24 * 24 ≤ h := Nat.div_mul_le_self h 24
    have : 2 ^ (Nat.log 2 (h / 24) + 4) < 2 ^ (Nat.log 2 h + 1) := by
      calc 2 ^ (Nat.log 2 (h / 24) + 4) = 2 ^ Nat.log 2 (h / 24) * 16 := by rw [pow_add]; norm_num
        _ ≤ h / 24 * 16 := Nat.mul_le_mul_right 16 j1
        _ ≤ h / 24 * 24 := Nat.mul_le_mul_left _ (by norm_num)
        _ ≤ h := hmul
        _ < 2 ^ (Nat.log 2 h + 1) := e2
    have := (Nat.pow_lt_pow_iff_right (by norm_num : 1 < 2)).mp this
    omega
  have hjle : Nat.log 2 (h / 24) ≤ 52 := by
    have : 2 ^ Nat.log 2 (h / 24) < 2 ^ 12 := by
      calc 2 ^ Nat.log 2 (h / 24) ≤ h / 24 := j1
        _ < 2 ^ 12 := by omega
    have := (Nat.pow_lt_pow_iff_right (by norm_num : 1 < 2)).mp this
    omega
  have hzp : (32 : ℚ) * (2 : ℚ) ^ ((Nat.log 2 (h / 24) : ℤ) - 53)
      ≤ (2 : ℚ) ^ ((Nat.log 2 h : ℤ) - 52) := by
    have : (32 : ℚ) * (2 : ℚ) ^ ((Nat.log 2 (h / 24) : ℤ) - 53)
        = (2 : ℚ) ^ ((Nat.log 2 (h / 24) : ℤ) - 48) := by
      have hs : (Nat.log 2 (h / 24) : ℤ) - 48 = 5 + ((Nat.log 2 (h / 24) : ℤ) - 53) := by ring
      rw [hs, zpow_add₀ (by norm_num : (2 : ℚ) ≠ 0)]
      norm_num
    rw [this]
    exact zpow_le_zpow_right₀ (by norm_num) (by omega)
  have hpos : (0 : ℚ) < (2 : ℚ) ^ ((Nat.log 2 (h / 24) : ℤ) - 53) := by positivity
  have hdiv : ((h / 24 : ℕ) : ℚ) * 24 ≤ (h : ℚ) := by
    have := Nat.div_mul_le_self h 24
    exact_mod_cast this
  have hlt : (h : ℚ) + 1 ≤ ((h / 24 : ℕ) : ℚ) * 24 + 24 := by
    have : h + 1 ≤ h / 24 * 24 + 24 := by omega
    exact_mod_cast this
  have hb := roundF64_floor_bounds (total / 24) (h / 24) (Nat.log 2 (h / 24)) j1 j2 hjle
    (by rw [le_div_iff₀ (by norm_num)]; linarith)
    (by
      have : total / 24 ≤ ((h / 24 : ℕ) : ℚ) + 1 - (2 : ℚ) ^ ((Nat.log 2 h : ℤ) - 52) / 24 := by
        rw [div_le_iff₀ (by norm_num)]
        linarith
      linarith)
  have hu : (0 : ℚ) < (2 : ℚ) ^ ((Nat.log 2 (h / 24) : ℤ) - 52) := by positivity
  exact ⟨hb.1, by linarith [hb.2]⟩

/-- Below 4096 hours `formatTimeUntil` follows the piecewise definition of
the specification. -/
theorem formatDelta_eq_specTimeUntil (delta : ℤ) (h : delta < 4096 * hourNs) :
    formatDelta delta = specTimeUntil delta := by
  unfold formatDelta specTimeUntil
  by_cases h0 : delta ≤ 0
  · rw [if_pos h0, if_pos h0]
  · rw [if_neg h0, if_neg h0]
    obtain ⟨d, rfl⟩ : ∃ d : ℕ, delta = (d : ℤ) := ⟨delta.toNat, by omega⟩
    have hd : d < 4096 * 3600000000000 := by
      have : (d : ℤ) < 4096 * 3600000000000 := h
      exact_mod_cast this
    obtain ⟨t1, t2, _⟩ := durationHours_bounds d hd
    have hhours : truncToInt (durationHours (d : ℤ)) = ((d / 3600000000000 : ℕ) : ℤ) :=
      truncToInt_eq _ _ t1 t2
    have hdivH : (d : ℤ) / hourNs = ((d / 3600000000000 : ℕ) : ℤ) :=
      (Int.natCast_div d 3600000000000).symm
    dsimp only
    by_cases hday : (d : ℤ) < 24 * hourNs
    · have hd24 : d < 24 * 3600000000000 := by
        have : (d : ℤ) < 24 * 3600000000000 := hday
        exact_mod_cast this
      have hh24 : d / 3600000000000 < 24 := by
        rw [Nat.div_lt_iff_lt_mul (by norm_num)]
        exact hd24
      have hlt : durationHours (d : ℤ) < 24 := by
        have : ((d / 3600000000000 : ℕ) : ℚ) + 1 ≤ 24 := by
          have : d / 3600000000000 + 1 ≤ 24 := hh24
          exact_mod_cast this
        linarith
      obtain ⟨m1, m2⟩ := durationMinutes_bounds d hd24
      have hmin : truncToInt (durationMinutes (d : ℤ)) = ((d / 60000000000 : ℕ) : ℤ) :=
        truncToInt_eq _ _ m1 m2
      have hdivM : (d : ℤ) / minuteNs = ((d / 60000000000 : ℕ) : ℤ) :=
        (Int.natCast_div d 60000000000).symm
      rw [if_pos hlt, if_pos hday, hhours, hmin, hdivH, hdivM,
        Int.tmod_eq_emod (by positivity) (by norm_num)]
    · have hd24 : 24 * 3600000000000 ≤ d := by
        have : (24 : ℤ) * 3600000000000 ≤ (d : ℤ) := not_lt.mp hday
        exact_mod_cast this
      have hh24 : 24 ≤ d / 3600000000000 := by
        rw [Nat.le_div_iff_mul_le (by norm_num)]
        exact hd24
      have hge : ¬ durationHours (d : ℤ) < 24 := by
        have : (24 : ℚ) ≤ ((d / 3600000000000 : ℕ) : ℚ) := by exact_mod_cast hh24
        linarith
      obtain ⟨y1, y2⟩ := days_bounds d hd hh24
      have hdays : truncToInt (roundF64 (durationHours (d : ℤ) / 24))
          = ((d / 3600000000000 / 24 : ℕ) : ℤ) := truncToInt_eq _ _ y1 y2
      have hdivD : (d : ℤ) / (24 * hourNs) = ((d / 3600000000000 / 24 : ℕ) : ℤ) := by
        have hc : (24 : ℤ) * hourNs = ((3600000000000 * 24 : ℕ) : ℤ) := by decide
        rw [Nat.div_div_eq_div_mul, Int.natCast_div, hc]
      rw [if_neg hge, if_neg hday, hhours, hdays, hdivH, hdivD,
        Int.tmod_eq_emod (by positivity) (by norm_num)]

/-! ## The claim about the time until reset -/

/-- C4, as stated, fails: at a duration of 4097 hours less one nanosecond
`Duration.Hours` rounds the hours up to 4097, so `formatTimeUntil` prints
`170d 17h` where the piecewise definition gives `170d 16h`. -/
theorem formatTimeUntil_differs_at_4097_hours :
    formatTimeUntil (fun _ => some 14749199999999999) "t".toList = "170d 17h".toList ∧
    specTimeUntil 14749199999999999 = "170d 16h".toList ∧
    durationHours 14749199999999999 = 4097 ∧
    formatTimeUntil (fun _ => some 14749199999999999) "t".toList
      ≠ specTimeUntil 14749199999999999 := by
  decide!

/-- C4, amended: an empty or unparsable timestamp gives `unknown`, and for
every duration `delta` below 4096 hours `formatTimeUntil` equals the
piecewise definition of the specification: `now` for `delta ≤ 0`, whole hours
and whole minutes modulo 60 below 24 hours, whole days and whole hours
modulo 24 from 24 hours on, with the ranges and sums the claim names; 30
minutes give `0h 30m`, 2 days 3 hours give `2d 3h`, 24 hours give `1d 0h`. -/
theorem formatTimeUntil_below_4096_hours :
    (∀ untilNs : Str → Option ℤ, formatTimeUntil untilNs [] = "unknown".toList) ∧
    (∀ (untilNs : Str → Option ℤ) (iso : Str), untilNs iso = none →
      formatTimeUntil untilNs iso = "unknown".toList) ∧
    (∀ (untilNs : Str → Option ℤ) (iso : Str) (delta : ℤ), iso ≠ [] →
      untilNs iso = some delta → delta < 4096 * hourNs →
      formatTimeUntil untilNs iso = specTimeUntil delta) ∧
    (∀ delta : ℤ, delta ≤ 0 → specTimeUntil delta = "now".toList) ∧
    (∀ delta : ℤ, 0 < delta → delta < 24 * hourNs →
      specTimeUntil delta =
        fmtInt (delta / hourNs) ++ "h ".toList ++ fmtInt (delta / minuteNs % 60) ++ "m".toList ∧
      0 ≤ delta / hourNs ∧ delta / hourNs ≤ 23 ∧
      0 ≤ delta / minuteNs % 60 ∧ delta / minuteNs % 60 ≤ 59 ∧
      60 * (delta / hourNs) + delta / minuteNs % 60 = delta / minuteNs) ∧
    (∀ delta : ℤ, 24 * hourNs ≤ delta →
      specTimeUntil delta =
        fmtInt (delta / (24 * hourNs)) ++ "d ".toList ++ fmtInt (delta / hourNs % 24)
          ++ "h".toList ∧
      1 ≤ delta / (24 * hourNs) ∧ 0 ≤ delta / hourNs % 24 ∧ delta / hourNs % 24 ≤ 23 ∧
      24 * (delta / (24 * hourNs)) + delta / hourNs % 24 = delta / hourNs) ∧
    formatTimeUntil (fun _ => some (30 * minuteNs)) "t".toList = "0h 30m".toList ∧
    formatTimeUntil (fun _ => some (51 * hourNs)) "t".toList = "2d 3h".toList ∧
    formatTimeUntil (fun _ => some (24 * hourNs)) "t".toList = "1d 0h".toList := by
  refine ⟨fun _ => rfl, ?_, ?_, ?_, ?_, ?_, by decide!, by decide!, by decide!⟩
  · intro untilNs iso h
    unfold formatTimeUntil
    rw [h]
    split <;> rfl
  · intro untilNs iso delta hne h hlt
    unfold formatTimeUntil
    rw [if_neg hne, h]
    exact formatDelta_eq_specTimeUntil delta hlt
  · intro delta h
    unfold specTimeUntil
    rw [if_pos h]
  · intro delta h0 h24
    refine ⟨?_, ?_⟩
    · unfold specTimeUntil
      rw [if_neg (not_le.mpr h0), if_pos h24]
    · unfold hourNs minuteNs at *
      omega
  · intro delta h24
    have h0 : 0 < delta := lt_of_lt_of_le (by decide) h24
    refine ⟨?_, ?_⟩
    · unfold specTimeUntil
      rw [if_neg (not_le.mpr h0), if_neg (not_lt.mpr h24)]
    · unfold hourNs at *
      omega

/-- The amended claim C4 at a concrete timestamp: one hour and a half from
now. -/
theorem formatTimeUntil_below_4096_hours_witness :
    formatTimeUntil (fun _ => some (90 * minuteNs)) "2026-01-01T00:00:00Z".toList
      = specTimeUntil (90 * minuteNs) :=
  formatTimeUntil_below_4096_hours.2.2.1 _ _ (90 * minuteNs) (by decide) rfl (by decide)

end ClaudeUsage
